import Mathlib

/-!
Verification of the ATMX market-engine core against its specification.

The Go sources are shallowly embedded:
* `shopspring/decimal` values are embedded as `ℚ`.  The operations the
  verified code paths use — add, sub, mul, neg, abs, comparisons — are exact
  on decimals and are mapped to the exact rational operations.  `Decimal.Div`
  rounds to 16 fractional digits (shopspring's `DivisionPrecision`) half away
  from zero, and `Decimal.Round` rounds half away from zero to a given scale;
  both are embedded explicitly (`decimalDiv`, `decimalRound`).
* Go strings in the verified paths are ASCII (H3 cell ids, tickers, sides),
  so byte indexing and `Char` indexing agree; strings are embedded as `String`
  with explicit helpers over the underlying character list.
* Go maps are embedded as association lists; map iteration order only feeds
  order-insensitive folds (sums, first-match lookups over unique keys) in the
  verified paths.
* the float64 transcendental core of the LMSR pricer (softmax, log-sum-exp)
  is not re-modelled bit for bit: the pricer is parametrised by an oracle
  holding the float results, and every theorem about the pricer holds for
  every oracle, hence for the actual float computation.
-/

namespace ATMX

/-! ## Decimal arithmetic (shopspring/decimal embedded in ℚ) -/

/-- Absolute value as `decimal.Abs` computes it. -/
def qabs (x : ℚ) : ℚ := if x < 0 then -x else x

/-- Round half away from zero to the nearest integer, as shopspring rounds. -/
def roundHalfAway (x : ℚ) : ℤ := if x < 0 then -⌊-x + 1 / 2⌋ else ⌊x + 1 / 2⌋

/-- `decimal.Round(scale)`: round half away from zero to `scale` fractional
digits. -/
def decimalRound (scale : ℕ) (x : ℚ) : ℚ :=
  (roundHalfAway (x * 10 ^ scale) : ℚ) / 10 ^ scale

/-- shopspring's `DivisionPrecision`: `Div` keeps 16 fractional digits. -/
def divisionPrecision : ℕ := 16

/-- `decimal.Div`: exact quotient rounded to `DivisionPrecision` fractional
digits half away from zero. -/
def decimalDiv (x y : ℚ) : ℚ := decimalRound divisionPrecision (x / y)

/-! ## Correlation limiter (`internal/correlation/limiter.go`) -/

/-- The two violations `CheckLimit` can report. -/
inductive LimitError where
  | perCell
  | correlated
deriving DecidableEq

/-- `correlation.PositionLimiter`. -/
structure PositionLimiter where
  maxPerCell : ℚ
  maxCorrelated : ℚ
  prefixLen : ℕ
deriving DecidableEq

/-- First `n` characters of a string (`s[:n]` on the ASCII ids in play). -/
def strTake (s : String) (n : ℕ) : String := String.mk (s.data.take n)

/-- `len(s)` on the ASCII ids in play. -/
def strLen (s : String) : ℕ := s.data.length

/-- `correlation.cellPrefix`: the first `length` characters of an H3 cell id,
or the whole id when it is no longer than `length`. -/
def cellPrefix (cellID : String) (length : ℕ) : String :=
  if strLen cellID ≤ length then cellID else strTake cellID length

/-- Go map read with zero value for a missing key:
`existingExposures[targetCell]`. -/
def lookupExposure (exps : List (String × ℚ)) (cell : String) : ℚ :=
  (exps.lookup cell).getD 0

/-- The loop of `CheckLimit`: `|newPosition|` plus the summed `|exposure|`
of every other cell sharing the target's prefix. -/
def correlatedTotal (l : PositionLimiter) (targetCell : String) (newPosition : ℚ)
    (exps : List (String × ℚ)) : ℚ :=
  qabs newPosition +
    ((exps.filter fun p =>
        p.1 != targetCell && (cellPrefix p.1 l.prefixLen == cellPrefix targetCell l.prefixLen)).map
      fun p => qabs p.2).sum

/-- `PositionLimiter.CheckLimit`: per-cell cap first, then the correlated cap;
`none` means the trade is within limits. -/
def checkLimit (l : PositionLimiter) (targetCell : String) (exposureDelta : ℚ)
    (exps : List (String × ℚ)) : Option LimitError :=
  let newPosition := lookupExposure exps targetCell + exposureDelta
  if qabs newPosition > l.maxPerCell then some .perCell
  else if correlatedTotal l targetCell newPosition exps > l.maxCorrelated then some .correlated
  else none

/-- The specification's prefix formula, `targetCell[:min(prefixLen, len(targetCell))]`. -/
def specPrefix (s : String) (n : ℕ) : String := strTake s (min n (strLen s))

/-- The specification's correlated total: `|newInCell| + Σ |existing[c]|`
over cells `c ≠ targetCell` whose `specPrefix` equals the target's. -/
def specCorrelated (l : PositionLimiter) (targetCell : String) (newInCell : ℚ)
    (exps : List (String × ℚ)) : ℚ :=
  qabs newInCell +
    ((exps.filter fun p =>
        p.1 != targetCell && (specPrefix p.1 l.prefixLen == specPrefix targetCell l.prefixLen)).map
      fun p => qabs p.2).sum

/-! ## LMSR pricer (`internal/lmsr/lmsr.go`) -/

/-- `lmsr.MinPrice` (= 0.001). -/
def MinPrice : ℚ := 1 / 1000

/-- `lmsr.MaxPrice` (= 0.999). -/
def MaxPrice : ℚ := 999 / 1000

/-- `lmsr.PriceScale`: prices and costs round to 8 fractional digits. -/
def PriceScale : ℕ := 8

/-- The clamp at the end of `MarketMaker.Price`. -/
def clampPrice (p : ℚ) : ℚ :=
  if p < MinPrice then MinPrice else if p > MaxPrice then MaxPrice else p

/-- Oracle holding the float64 results of the pricer's transcendental core,
one entry per float computation in `lmsr.go` (each a pure function of
`(b, qYes, qNo)`); every theorem below quantifies over the oracle, so it holds
in particular for the actual float64 evaluation:
* `softmaxRounded b qYes qNo` stands for the softmax price
  `exp(qYes/b - m) / (exp(qYes/b - m) + exp(qNo/b - m))` computed in float64
  by `Price` and already rounded to `PriceScale` digits — the value fed to
  the clamp;
* `costRounded b qYes qNo` stands for `b * lse(qYes/b, qNo/b)` computed in
  float64 by `Cost` and rounded to `PriceScale` digits;
* `floatPriceInBounds b qYes qNo` stands for the bounds comparison
  `validatePriceAfterTrade` performs on raw float64 values. -/
structure PricerOracle where
  softmaxRounded : ℚ → ℚ → ℚ → ℚ
  costRounded : ℚ → ℚ → ℚ → ℚ
  floatPriceInBounds : ℚ → ℚ → ℚ → Bool

/-- `MarketMaker.Price`: rounded softmax clamped to `[MinPrice, MaxPrice]`. -/
def Price (po : PricerOracle) (b qYes qNo : ℚ) : ℚ :=
  clampPrice (po.softmaxRounded b qYes qNo)

/-- `MarketMaker.PriceNo`: `1 - Price(qYes, qNo)`, returned with no further
clamp of its own. -/
def PriceNo (po : PricerOracle) (b qYes qNo : ℚ) : ℚ := 1 - Price po b qYes qNo

/-- `MarketMaker.TradeCost`: `C(qYes + deltaYes, qNo) - C(qYes, qNo)`. -/
def TradeCost (po : PricerOracle) (b qYes qNo deltaYes : ℚ) : ℚ :=
  po.costRounded b (qYes + deltaYes) qNo - po.costRounded b qYes qNo

/-- `MarketMaker.TradeCostNo`, via the symmetry `C(a, b) = C(b, a)`. -/
def TradeCostNo (po : PricerOracle) (b qYes qNo deltaNo : ℚ) : ℚ :=
  TradeCost po b qNo qYes deltaNo

/-- `MarketMaker.FillPrice`: average execution price `cost / delta` rounded to
`PriceScale`, or the current price when `delta = 0`. -/
def FillPrice (po : PricerOracle) (b qFirst qSecond delta : ℚ) : ℚ :=
  if delta = 0 then Price po b qFirst qSecond
  else decimalRound PriceScale (decimalDiv (TradeCost po b qFirst qSecond delta) delta)

/-- `MarketMaker.ValidateTrade` (`true` = resulting YES price within bounds). -/
def ValidateTrade (po : PricerOracle) (b qYes qNo deltaYes : ℚ) : Bool :=
  po.floatPriceInBounds b (qYes + deltaYes) qNo

/-- `MarketMaker.ValidateTradeNo`. -/
def ValidateTradeNo (po : PricerOracle) (b qYes qNo deltaNo : ℚ) : Bool :=
  po.floatPriceInBounds b qYes (qNo + deltaNo)

/-! ## Liquidity deriver (`internal/contract/contract.go`, `lmsr.go`) -/

/-- `contract.NWSForecastData` (the fields `DeriveLiquidity` reads). -/
structure NWSForecastData where
  percentile25 : ℚ
  percentile50 : ℚ
  percentile75 : ℚ
deriving DecidableEq

/-- `contract.DeriveLiquidity` (its error result is always nil in the
source, so the embedding returns the decimal alone). -/
def DeriveLiquidity (nws : NWSForecastData) (baseVolume : ℚ) : ℚ :=
  let iqr := nws.percentile75 - nws.percentile25
  let median := nws.percentile50
  if median ≤ 0 then
    if iqr ≤ 0 then 10
    else
      let b := baseVolume * iqr
      if b < 10 then 10 else decimalRound 2 b
  else
    let cv := decimalDiv iqr median
    let b := baseVolume * cv
    if b < 10 then 10 else decimalRound 2 b

/-- `lmsr.NewMarketMakerFromNWSConfidence`: derives `b` from the quartiles,
failing when the promised positivity of the median or of the IQR does not
hold; on success the resulting market maker's liquidity `b` is returned. -/
def NewMarketMakerFromNWSConfidence (percentile25 percentile75 median baseVolume : ℚ) :
    Except String ℚ :=
  if median ≤ 0 then .error "lmsr: median must be positive"
  else
    let iqr := percentile75 - percentile25
    if iqr ≤ 0 then .error "lmsr: 75th percentile must exceed 25th percentile"
    else
      let b := decimalDiv (baseVolume * iqr) median
      if b < 10 then .ok 10 else .ok b

/-! ## Ticker parser (`internal/contract/contract.go`) -/

/-- The class `[0-9a-f]`. -/
def isHexLower (c : Char) : Bool := (('0' ≤ c) && (c ≤ '9')) || (('a' ≤ c) && (c ≤ 'f'))

/-- The class `[A-Z]`. -/
def isUpperAZ (c : Char) : Bool := ('A' ≤ c) && (c ≤ 'Z')

/-- The classes `[0-9]` and `\d`. -/
def isDigit09 (c : Char) : Bool := ('0' ≤ c) && (c ≤ '9')

/-- `[0-9]+[A-Z]*`: a nonempty digit run followed by an uppercase run. -/
def thresholdOK (cs : List Char) : Bool :=
  let ds := cs.takeWhile isDigit09
  !ds.isEmpty && (cs.drop ds.length).all isUpperAZ

/-- Split a character list on `-` (each group free of `-`, every separator
consumed); the char-level counterpart of splitting on the regex's literal
dashes. -/
def splitDash : List Char → List (List Char)
  | [] => [[]]
  | c :: cs =>
    match splitDash cs with
    | [] => [[]]
    | g :: gs => if c = '-' then [] :: g :: gs else (c :: g) :: gs

/-- Join groups back with `-` separators; inverse of `splitDash`. -/
def joinDash : List (List Char) → List Char
  | [] => []
  | [g] => g
  | g :: gs => g ++ '-' :: joinDash gs

/-- The anchored match of `tickerRegex`
(`ATMX-([0-9a-f]+)-([A-Z]+)-([0-9]+[A-Z]*)-(\d{8})` between `^` and `$`):
since `-` occurs in none of the character classes, a string matches exactly
when it splits on `-` into the literal `ATMX` and the four groups, each
checked against its class. -/
def tickerMatch (s : String) : Option (List Char × List Char × List Char × List Char) :=
  match splitDash s.data with
  | [lead, cell, ty, thr, date] =>
    if lead = "ATMX".data ∧ cell ≠ [] ∧ cell.all isHexLower
        ∧ ty ≠ [] ∧ ty.all isUpperAZ ∧ thresholdOK thr
        ∧ date.length = 8 ∧ date.all isDigit09 then
      some (cell, ty, thr, date)
    else none
  | _ => none

/-- A calendar date, standing for that day at 00:00:00 UTC (the instant
`time.Parse` with layout `20060102` produces). -/
structure Date where
  year : ℕ
  month : ℕ
  day : ℕ
deriving DecidableEq

/-- The Gregorian leap-year rule Go's `time` package applies. -/
def isLeapYear (y : ℕ) : Bool := y % 4 == 0 && (y % 100 != 0 || y % 400 == 0)

/-- Days in a month of the proleptic Gregorian calendar. -/
def daysInMonth (y m : ℕ) : ℕ :=
  if m = 2 then (if isLeapYear y then 29 else 28)
  else if m = 4 ∨ m = 6 ∨ m = 9 ∨ m = 11 then 30
  else 31

/-- Numeric value of a digit string. -/
def digitsToNat (cs : List Char) : ℕ := cs.foldl (fun n c => 10 * n + (c.toNat - 48)) 0

/-- `time.Parse("20060102", dateStr)` on an 8-digit string: year, month and
day, with Go's calendar validation (month 1..12, day within the month under
the Gregorian leap rule). -/
def parseDate8 (date : List Char) : Option Date :=
  let y := digitsToNat (date.take 4)
  let m := digitsToNat ((date.drop 4).take 2)
  let d := digitsToNat (date.drop 6)
  if 1 ≤ m ∧ m ≤ 12 ∧ 1 ≤ d ∧ d ≤ daysInMonth y m then some ⟨y, m, d⟩ else none

/-- The two error kinds of the ticker parser. -/
inductive TickerError where
  | invalidTicker
  | unsupportedType
deriving DecidableEq

/-- Parsed `contract.Contract`. -/
structure Contract where
  ticker : String
  h3CellID : String
  type : String
  threshold : String
  expiryDate : Date
deriving DecidableEq

/-- The keys of `contract.validTypes`. -/
def validTypes : List String := ["PRECIP", "TEMP", "WIND", "SNOW"]

/-- `contract.ParseTicker`: regex match, then supported-type check, then date
validation. -/
def ParseTicker (ticker : String) : Except TickerError Contract :=
  match tickerMatch ticker with
  | none => .error .invalidTicker
  | some (h3Cell, contractType, threshold, dateStr) =>
    if String.mk contractType ∈ validTypes then
      match parseDate8 dateStr with
      | some expiry =>
        .ok ⟨ticker, String.mk h3Cell, String.mk contractType, String.mk threshold, expiry⟩
      | none => .error .invalidTicker
    else .error .unsupportedType

/-- A calendar-valid date under Go's rules. -/
def ValidDate (dt : Date) : Prop :=
  1 ≤ dt.month ∧ dt.month ≤ 12 ∧ 1 ≤ dt.day ∧ dt.day ≤ daysInMonth dt.year dt.month

instance (dt : Date) : Decidable (ValidDate dt) :=
  inferInstanceAs (Decidable (1 ≤ dt.month ∧ dt.month ≤ 12 ∧ 1 ≤ dt.day ∧
    dt.day ≤ daysInMonth dt.year dt.month))

/-- The date encoded by an 8-digit `YYYYMMDD` group. -/
def dateOfDigits (ds : List Char) : Date :=
  ⟨digitsToNat (ds.take 4), digitsToNat ((ds.drop 4).take 2), digitsToNat (ds.drop 6)⟩

/-- The specification's acceptance predicate, written from its words: the
string is literally `ATMX-{cell}-{type}-{threshold}-{YYYYMMDD}` with `cell`
matching `[0-9a-f]+`, `type` one of the four supported values, `threshold`
matching `[0-9]+[A-Z]*`, and a valid Gregorian date. -/
def specTickerOK (s : String) : Prop :=
  ∃ cell ty thr ds : List Char,
    s.data = "ATMX".data ++ '-' :: (cell ++ '-' :: (ty ++ '-' :: (thr ++ '-' :: ds))) ∧
    cell ≠ [] ∧ cell.all isHexLower ∧
    String.mk ty ∈ validTypes ∧
    thresholdOK thr = true ∧
    ds.length = 8 ∧ ds.all isDigit09 ∧ ValidDate (dateOfDigits ds)

/-! ## Broadcast hub (`ws.go`) -/

/-- Capacity of the hub's bounded broadcast queue (`make(chan []byte, 256)`). -/
def wsQueueCapacity : ℕ := 256

/-- `trade.WSMessage` (string-typed fields as serialized). -/
structure WSMessage where
  type : String
  marketID : String
  contractID : String
  h3CellID : String
  priceYes : String
  priceNo : String
  side : String
  quantity : String
deriving DecidableEq

/-- The hub state the broadcast path touches: the bounded queue of pending
messages (head = oldest). -/
structure WSHub where
  queue : List WSMessage
deriving DecidableEq

/-- `WSHub.Broadcast`: the `select` with a `default` arm submits the message
when the bounded queue has room and otherwise drops it; either way the caller
gets control straight back and no error is surfaced (the Go method returns
nothing). -/
def Broadcast (h : WSHub) (msg : WSMessage) : WSHub :=
  if h.queue.length < wsQueueCapacity then { queue := h.queue ++ [msg] } else h

/-! ## Domain model (`internal/model/model.go`) -/

/-- `model.Market`. `createdAt` is a UTC timestamp in opaque units. -/
structure Market where
  id : String
  contractID : String
  h3CellID : String
  qYes : ℚ
  qNo : ℚ
  b : ℚ
  priceYes : ℚ
  priceNo : ℚ
  status : String
  createdAt : ℕ
deriving DecidableEq

/-- `model.LedgerEntry`. -/
structure LedgerEntry where
  id : String
  userID : String
  marketID : String
  contractID : String
  side : String
  quantity : ℚ
  price : ℚ
  cost : ℚ
  timestamp : ℕ
deriving DecidableEq

/-- `model.Position` (derived, never stored). -/
structure Position where
  userID : String
  marketID : String
  contractID : String
  h3CellID : String
  yesQty : ℚ
  noQty : ℚ
  netQty : ℚ
  costBasis : ℚ
  currentValue : ℚ
  unrealizedPnL : ℚ
deriving DecidableEq

/-! ## Trade service (`internal/trade/service.go`) -/

/-- `trade.TradeRequest`. -/
structure TradeRequest where
  userID : String
  contractID : String
  side : String
  quantity : ℚ
deriving DecidableEq

/-- `trade.PositionSummary`. -/
structure PositionSummary where
  yesQty : ℚ
  noQty : ℚ
  costBasis : ℚ
  unrealizedPnL : ℚ
deriving DecidableEq

/-- `trade.TradeResponse`. -/
structure TradeResponse where
  tradeID : String
  userID : String
  contractID : String
  side : String
  quantity : ℚ
  fillPrice : ℚ
  cost : ℚ
  position : PositionSummary
deriving DecidableEq

/-- The HTTP status classes `writeError` is called with along the trade path. -/
inductive ErrKind where
  | badRequest
  | notFound
  | conflict
  | internalError
deriving DecidableEq

/-- An error response: status class and message. -/
structure TradeError where
  kind : ErrKind
  msg : String
deriving DecidableEq

/-- The Go error strings of the limiter, as surfaced by `CheckLimit`. -/
def limitErrorMessage : LimitError → String
  | .perCell => "correlation: per-cell position limit exceeded"
  | .correlated => "correlation: correlated exposure limit exceeded"

/-- One invocation of a store operation, in the order `ExecuteTrade` makes
them. -/
inductive StoreCall where
  | getMarketByContract (contractID : String)
  | getUserCellExposures (userID : String)
  | updateMarketState (marketID : String) (qYes qNo priceYes priceNo : ℚ)
  | insertLedgerEntry (entry : LedgerEntry)
  | getUserPositions (userID : String)
deriving DecidableEq

/-- Whether a store call writes (mutates market state or the ledger). -/
def StoreCall.isWrite : StoreCall → Bool
  | .updateMarketState _ _ _ _ _ => true
  | .insertLedgerEntry _ => true
  | _ => false

/-- Scan of a call trace: every ledger append is strictly preceded by a
market-state update (`seenUpdate` carries whether one has happened yet). -/
def writesOrderedFrom (seenUpdate : Bool) : List StoreCall → Bool
  | [] => true
  | c :: cs =>
    match c with
    | .insertLedgerEntry _ => seenUpdate && writesOrderedFrom seenUpdate cs
    | .updateMarketState _ _ _ _ _ => writesOrderedFrom true cs
    | _ => writesOrderedFrom seenUpdate cs

/-- In this trace, every ledger append happens strictly after some
market-state update. -/
def writesOrdered (calls : List StoreCall) : Bool := writesOrderedFrom false calls

/-- The slice of the `store.Store` interface `ExecuteTrade` uses, over an
abstract store state `σ`.  Reads return a value and leave the state alone
(as in the repository implementations: the in-memory store hands out copies
under a read lock, the wrapped stores query); writes fail or return the
successor state. -/
structure StoreOps (σ : Type) where
  getMarketByContract : σ → String → Except String Market
  getUserCellExposures : σ → String → Except String (List (String × ℚ))
  updateMarketState : σ → String → ℚ → ℚ → ℚ → ℚ → Except String σ
  insertLedgerEntry : σ → LedgerEntry → Except String σ
  getUserPositions : σ → String → Except String (List Position)

/-- What one run of `ExecuteTrade` produces: the HTTP-level result, the final
store state, and the ordered store calls it made. -/
structure ExecOutcome (σ : Type) where
  res : Except TradeError TradeResponse
  state : σ
  calls : List StoreCall

/-- Exposure delta of a request: `+quantity` for YES, `-quantity` for NO. -/
def exposureDeltaOf (req : TradeRequest) : ℚ :=
  if req.side = "NO" then -req.quantity else req.quantity

/-- The side-dependent price-bound validation step of `ExecuteTrade`. -/
def tradeValidateOK (po : PricerOracle) (m : Market) (req : TradeRequest) : Bool :=
  if req.side = "YES" then ValidateTrade po m.b m.qYes m.qNo req.quantity
  else ValidateTradeNo po m.b m.qYes m.qNo req.quantity

/-- The side-dependent trade cost computed by `ExecuteTrade`. -/
def tradeCostOf (po : PricerOracle) (m : Market) (req : TradeRequest) : ℚ :=
  if req.side = "YES" then TradeCost po m.b m.qYes m.qNo req.quantity
  else TradeCostNo po m.b m.qYes m.qNo req.quantity

/-- The side-dependent fill price computed by `ExecuteTrade` (arguments
swapped for NO). -/
def tradeFillPriceOf (po : PricerOracle) (m : Market) (req : TradeRequest) : ℚ :=
  if req.side = "YES" then FillPrice po m.b m.qYes m.qNo req.quantity
  else FillPrice po m.b m.qNo m.qYes req.quantity

/-- Post-trade YES quantity. -/
def tradeNewQYes (m : Market) (req : TradeRequest) : ℚ :=
  if req.side = "YES" then m.qYes + req.quantity else m.qYes

/-- Post-trade NO quantity. -/
def tradeNewQNo (m : Market) (req : TradeRequest) : ℚ :=
  if req.side = "YES" then m.qNo else m.qNo + req.quantity

/-- The ledger entry `ExecuteTrade` appends: fresh id `uuid`, the computed
cost and fill price, `timestamp = now`. -/
def tradeEntryOf (po : PricerOracle) (m : Market) (req : TradeRequest) (uuid : String)
    (now : ℕ) : LedgerEntry :=
  { id := uuid, userID := req.userID, marketID := m.id, contractID := req.contractID,
    side := req.side, quantity := req.quantity, price := tradeFillPriceOf po m req,
    cost := tradeCostOf po m req, timestamp := now }

/-- The loop over the freshly read positions: the first position for the
traded market, or the zero-valued summary when none matches (also when the
read errored, since its error is discarded and the nil slice holds nothing). -/
def findPosSummary (positions : List Position) (marketID : String) : PositionSummary :=
  match positions.find? (fun p => p.marketID == marketID) with
  | some p =>
    { yesQty := p.yesQty, noQty := p.noQty, costBasis := p.costBasis,
      unrealizedPnL := p.unrealizedPnL }
  | none => { yesQty := 0, noQty := 0, costBasis := 0, unrealizedPnL := 0 }

/-- `Service.ExecuteTrade`, embedded over an abstract store and the pricer
oracle.  `uuid` stands for the fresh `uuid.New()` and `now` for
`time.Now().UTC()` of the run.  The final broadcast goes to the hub, not the
store, and is modelled by `Broadcast`. -/
def executeTrade {σ : Type} (ops : StoreOps σ) (po : PricerOracle) (lim : PositionLimiter)
    (req : TradeRequest) (uuid : String) (now : ℕ) (s : σ) : ExecOutcome σ :=
  if req.userID = "" then ⟨.error ⟨.badRequest, "user_id is required"⟩, s, []⟩
  else if req.side ≠ "YES" ∧ req.side ≠ "NO" then
    ⟨.error ⟨.badRequest, "side must be YES or NO"⟩, s, []⟩
  else if req.quantity = 0 then ⟨.error ⟨.badRequest, "quantity must be non-zero"⟩, s, []⟩
  else
    match ops.getMarketByContract s req.contractID with
    | .error _ =>
      ⟨.error ⟨.notFound, "market not found for contract: " ++ req.contractID⟩, s,
        [.getMarketByContract req.contractID]⟩
    | .ok market =>
      if market.status ≠ "open" then
        ⟨.error ⟨.conflict, "market is not open for trading"⟩, s,
          [.getMarketByContract req.contractID]⟩
      else if market.b ≤ 0 then
        ⟨.error ⟨.internalError, "internal error: invalid market configuration"⟩, s,
          [.getMarketByContract req.contractID]⟩
      else
        match ops.getUserCellExposures s req.userID with
        | .error _ =>
          ⟨.error ⟨.internalError, "failed to check position limits"⟩, s,
            [.getMarketByContract req.contractID, .getUserCellExposures req.userID]⟩
        | .ok exposures =>
          match checkLimit lim market.h3CellID (exposureDeltaOf req) exposures with
          | some limitErr =>
            ⟨.error ⟨.conflict, limitErrorMessage limitErr⟩, s,
              [.getMarketByContract req.contractID, .getUserCellExposures req.userID]⟩
          | none =>
            if tradeValidateOK po market req = false then
              ⟨.error ⟨.conflict, "lmsr: trade would push price beyond allowed bounds"⟩, s,
                [.getMarketByContract req.contractID, .getUserCellExposures req.userID]⟩
            else
              match ops.updateMarketState s market.id (tradeNewQYes market req)
                  (tradeNewQNo market req)
                  (Price po market.b (tradeNewQYes market req) (tradeNewQNo market req))
                  (PriceNo po market.b (tradeNewQYes market req) (tradeNewQNo market req)) with
              | .error _ =>
                ⟨.error ⟨.internalError, "failed to update market state"⟩, s,
                  [.getMarketByContract req.contractID, .getUserCellExposures req.userID,
                   .updateMarketState market.id (tradeNewQYes market req) (tradeNewQNo market req)
                     (Price po market.b (tradeNewQYes market req) (tradeNewQNo market req))
                     (PriceNo po market.b (tradeNewQYes market req) (tradeNewQNo market req))]⟩
              | .ok s2 =>
                match ops.insertLedgerEntry s2 (tradeEntryOf po market req uuid now) with
                | .error _ =>
                  ⟨.error ⟨.internalError, "failed to record trade"⟩, s2,
                    [.getMarketByContract req.contractID, .getUserCellExposures req.userID,
                     .updateMarketState market.id (tradeNewQYes market req)
                       (tradeNewQNo market req)
                       (Price po market.b (tradeNewQYes market req) (tradeNewQNo market req))
                       (PriceNo po market.b (tradeNewQYes market req) (tradeNewQNo market req)),
                     .insertLedgerEntry (tradeEntryOf po market req uuid now)]⟩
                | .ok s3 =>
                  let positions :=
                    match ops.getUserPositions s3 req.userID with
                    | .error _ => []
                    | .ok ps => ps
                  ⟨.ok { tradeID := uuid, userID := req.userID, contractID := req.contractID,
                         side := req.side, quantity := req.quantity,
                         fillPrice := tradeFillPriceOf po market req,
                         cost := tradeCostOf po market req,
                         position := findPosSummary positions market.id }, s3,
                    [.getMarketByContract req.contractID, .getUserCellExposures req.userID,
                     .updateMarketState market.id (tradeNewQYes market req)
                       (tradeNewQNo market req)
                       (Price po market.b (tradeNewQYes market req) (tradeNewQNo market req))
                       (PriceNo po market.b (tradeNewQYes market req) (tradeNewQNo market req)),
                     .insertLedgerEntry (tradeEntryOf po market req uuid now),
                     .getUserPositions req.userID]⟩

/-! ## In-memory store (`internal/store/memory.go`) -/

/-- `store.MemoryStore`: a map `marketID → Market` and the ordered ledger. -/
structure MemoryStore where
  markets : List (String × Market)
  ledger : List LedgerEntry
deriving DecidableEq

/-- `MemoryStore.GetMarketByContract`. -/
def MemoryStore.getMarketByContract (s : MemoryStore) (contractID : String) :
    Except String Market :=
  match s.markets.find? (fun p => p.2.contractID == contractID) with
  | some p => .ok p.2
  | none => .error ("market for contract " ++ contractID ++ " not found")

/-- `MemoryStore.UpdateMarketState`: update the four fields of the market in
place, `NotFound` when the id is absent. -/
def MemoryStore.updateMarketState (s : MemoryStore) (id : String)
    (qYes qNo priceYes priceNo : ℚ) : Except String MemoryStore :=
  if (s.markets.lookup id).isSome then
    .ok { s with markets := s.markets.map fun p =>
      if p.1 == id then
        (p.1, { p.2 with qYes := qYes, qNo := qNo, priceYes := priceYes, priceNo := priceNo })
      else p }
  else .error ("market " ++ id ++ " not found")

/-- `MemoryStore.InsertLedgerEntry`: append-only. -/
def MemoryStore.insertLedgerEntry (s : MemoryStore) (e : LedgerEntry) :
    Except String MemoryStore :=
  .ok { s with ledger := s.ledger ++ [e] }

/-- The per-market accumulator (`posAgg`) of `GetUserPositions`. -/
structure PosAgg where
  marketID : String
  contractID : String
  yesQty : ℚ
  noQty : ℚ
  costBasis : ℚ
deriving DecidableEq

/-- One ledger entry folded into its market's accumulator: YES quantities on
one side, everything else on the NO side, cost always. -/
def applyEntry (a : PosAgg) (e : LedgerEntry) : PosAgg :=
  { a with
    yesQty := if e.side == "YES" then a.yesQty + e.quantity else a.yesQty,
    noQty := if e.side == "YES" then a.noQty else a.noQty + e.quantity,
    costBasis := a.costBasis + e.cost }

/-- The aggregation loop of `GetUserPositions` on one (already user-matched)
entry: update the market's accumulator, creating it on first sight. -/
def updateAggs (aggs : List PosAgg) (e : LedgerEntry) : List PosAgg :=
  if aggs.any (fun a => a.marketID == e.marketID) then
    aggs.map fun a => if a.marketID == e.marketID then applyEntry a e else a
  else
    aggs ++ [applyEntry
      { marketID := e.marketID, contractID := e.contractID, yesQty := 0, noQty := 0,
        costBasis := 0 } e]

/-- `MemoryStore.GetUserPositions`: aggregate the user's ledger entries per
market in one pass, then mark to market with the live price (price 0.5 and an
empty cell when the market is unknown). -/
def MemoryStore.getUserPositions (s : MemoryStore) (userID : String) :
    Except String (List Position) :=
  .ok <| ((s.ledger.filter fun e => e.userID == userID).foldl updateAggs []).map fun a =>
    let priceInfo :=
      match s.markets.lookup a.marketID with
      | some m => (m.priceYes, m.h3CellID)
      | none => ((1 : ℚ) / 2, "")
    let priceYes := priceInfo.1
    let priceNo := 1 - priceYes
    let netQty := a.yesQty - a.noQty
    let currentValue := priceYes * a.yesQty + priceNo * a.noQty
    { userID := userID, marketID := a.marketID, contractID := a.contractID,
      h3CellID := priceInfo.2, yesQty := a.yesQty, noQty := a.noQty, netQty := netQty,
      costBasis := a.costBasis, currentValue := currentValue,
      unrealizedPnL := currentValue - a.costBasis }

/-- Add `v` to the map entry of `k` (zero value when absent), as the Go
`exposures[cellID] += netQty` assignment does. -/
def addExposure (m : List (String × ℚ)) (k : String) (v : ℚ) : List (String × ℚ) :=
  if m.any (fun p => p.1 == k) then m.map fun p => if p.1 == k then (p.1, p.2 + v) else p
  else m ++ [(k, v)]

/-- `MemoryStore.GetUserCellExposures`: net exposure per cell folded from the
derived positions, skipping positions with no known cell. -/
def MemoryStore.getUserCellExposures (s : MemoryStore) (userID : String) :
    Except String (List (String × ℚ)) :=
  match s.getUserPositions userID with
  | .error e => .error e
  | .ok positions =>
    .ok (positions.foldl
      (fun m p => if p.h3CellID ≠ "" then addExposure m p.h3CellID p.netQty else m) [])

/-- The specification's sum for one side of a position:
`Σ quantity` over the user's entries for the market with the given side. -/
def sumQtyFor (ledger : List LedgerEntry) (uid mid side : String) : ℚ :=
  ((ledger.filter fun e => e.userID == uid && (e.marketID == mid && e.side == side)).map
    fun e => e.quantity).sum

/-- The specification's cost basis: `Σ cost` over the user's entries for the
market. -/
def sumCostFor (ledger : List LedgerEntry) (uid mid : String) : ℚ :=
  ((ledger.filter fun e => e.userID == uid && e.marketID == mid).map fun e => e.cost).sum

/-- Per-market YES-bucket sum over an already user-matched entry list. -/
def sumSideQty (l : List LedgerEntry) (mid side : String) : ℚ :=
  ((l.filter fun e => e.marketID == mid && e.side == side).map fun e => e.quantity).sum

/-- Per-market non-YES-bucket sum (the `else` bucket of the Go loop). -/
def sumOtherQty (l : List LedgerEntry) (mid : String) : ℚ :=
  ((l.filter fun e => e.marketID == mid && e.side != "YES").map fun e => e.quantity).sum

/-- Per-market cost sum over an already user-matched entry list. -/
def sumCostMid (l : List LedgerEntry) (mid : String) : ℚ :=
  ((l.filter fun e => e.marketID == mid).map fun e => e.cost).sum

/-- Net quantity summed over the positions held in one cell. -/
def sumNetForCell (ps : List Position) (cell : String) : ℚ :=
  ((ps.filter fun p => p.h3CellID == cell).map fun p => p.netQty).sum

/-- The in-memory store packaged as the trade service's store interface. -/
def memStoreOps : StoreOps MemoryStore where
  getMarketByContract := MemoryStore.getMarketByContract
  getUserCellExposures := MemoryStore.getUserCellExposures
  updateMarketState := MemoryStore.updateMarketState
  insertLedgerEntry := MemoryStore.insertLedgerEntry
  getUserPositions := MemoryStore.getUserPositions

/-! ## Concrete scenarios used to instantiate the theorems -/

/-- A fixed oracle instance used to evaluate concrete runs. -/
def onePricer : PricerOracle where
  softmaxRounded := fun _ _ _ => 1 / 2
  costRounded := fun _ _ _ => 0
  floatPriceInBounds := fun _ _ _ => true

/-- A permissive limiter used in concrete runs. -/
def wideLimiter : PositionLimiter := ⟨1000, 5000, 5⟩

/-- A fresh open market. -/
def sampleMarket : Market :=
  { id := "m1", contractID := "ATMX-872a1070b-PRECIP-25MM-20250815", h3CellID := "872a1070b",
    qYes := 0, qNo := 0, b := 100, priceYes := 1 / 2, priceNo := 1 / 2, status := "open",
    createdAt := 0 }

/-- A store holding only `sampleMarket` and an empty ledger. -/
def sampleStore : MemoryStore := { markets := [("m1", sampleMarket)], ledger := [] }

/-- A valid YES buy on the sample market. -/
def sampleRequest : TradeRequest :=
  { userID := "u1", contractID := "ATMX-872a1070b-PRECIP-25MM-20250815", side := "YES",
    quantity := 50 }

/-- The in-memory ops with the position read replaced by a failing read, to
exercise the degraded post-trade read path. -/
def failingPositionsOps : StoreOps MemoryStore :=
  { memStoreOps with getUserPositions := fun _ _ => .error "positions read failed" }

/-- A recorded YES buy of 50 shares for 26. -/
def sampleEntry1 : LedgerEntry :=
  { id := "e1", userID := "u1", marketID := "m1",
    contractID := "ATMX-872a1070b-PRECIP-25MM-20250815", side := "YES", quantity := 50,
    price := 13 / 25, cost := 26, timestamp := 1 }

/-- A recorded NO buy of 20 shares for 9. -/
def sampleEntry2 : LedgerEntry :=
  { id := "e2", userID := "u1", marketID := "m1",
    contractID := "ATMX-872a1070b-PRECIP-25MM-20250815", side := "NO", quantity := 20,
    price := 9 / 20, cost := 9, timestamp := 2 }

/-- The sample market with a two-entry ledger for user `u1`. -/
def ledgerStore : MemoryStore :=
  { markets := [("m1", sampleMarket)], ledger := [sampleEntry1, sampleEntry2] }

/-- The position the two sample entries aggregate to at price 0.5. -/
def samplePosition : Position :=
  { userID := "u1", marketID := "m1",
    contractID := "ATMX-872a1070b-PRECIP-25MM-20250815", h3CellID := "872a1070b",
    yesQty := 50, noQty := 20, netQty := 30, costBasis := 35, currentValue := 35,
    unrealizedPnL := 0 }

end ATMX

namespace ATMX

/-! ## Helper lemmas -/

theorem qabs_eq_abs (x : ℚ) : qabs x = |x| := by
  by_cases h : x < 0
  · simp [qabs, h, abs_of_neg h]
  · simp [qabs, h, abs_of_nonneg (not_lt.mp h)]

theorem cellPrefix_eq_specPrefix (s : String) (n : ℕ) : cellPrefix s n = specPrefix s n := by
  unfold cellPrefix specPrefix strTake strLen
  by_cases h : s.data.length ≤ n
  · simp only [if_pos h, min_eq_right h, List.take_length]
  · simp only [if_neg h, min_eq_left (le_of_not_le h)]

theorem correlatedTotal_eq_spec (l : PositionLimiter) (t : String) (x : ℚ)
    (exps : List (String × ℚ)) : correlatedTotal l t x exps = specCorrelated l t x exps := by
  unfold correlatedTotal specCorrelated
  simp only [cellPrefix_eq_specPrefix]

theorem floor_half_q : ⌊(1 / 2 : ℚ)⌋ = 0 := by
  rw [Int.floor_eq_zero_iff]
  constructor <;> norm_num

theorem roundHalfAway_intCast (n : ℤ) : roundHalfAway (n : ℚ) = n := by
  unfold roundHalfAway
  split_ifs with h
  · have h2 : -(n : ℚ) + 1 / 2 = ((-n : ℤ) : ℚ) + 1 / 2 := by push_cast; ring
    rw [h2, Int.floor_int_add, floor_half_q]
    omega
  · rw [Int.floor_int_add, floor_half_q]
    omega

theorem roundHalfAway_mono {x y : ℚ} (h : x ≤ y) : roundHalfAway x ≤ roundHalfAway y := by
  unfold roundHalfAway
  by_cases hx : x < 0 <;> by_cases hy : y < 0
  · rw [if_pos hx, if_pos hy]
    have hf : ⌊-y + 1 / 2⌋ ≤ ⌊-x + 1 / 2⌋ := Int.floor_le_floor (by linarith)
    omega
  · rw [if_pos hx, if_neg hy]
    have h1 : (0 : ℤ) ≤ ⌊-x + 1 / 2⌋ := Int.floor_nonneg.mpr (by linarith)
    have h2 : (0 : ℤ) ≤ ⌊y + 1 / 2⌋ := Int.floor_nonneg.mpr (by linarith [not_lt.mp hy])
    omega
  · exact absurd (h.trans_lt hy) hx
  · rw [if_neg hx, if_neg hy]
    exact Int.floor_le_floor (by linarith)

theorem decimalRound_mono (s : ℕ) {x y : ℚ} (h : x ≤ y) :
    decimalRound s x ≤ decimalRound s y := by
  unfold decimalRound
  have hp : (0 : ℚ) < 10 ^ s := by positivity
  have hm : x * 10 ^ s ≤ y * 10 ^ s := mul_le_mul_of_nonneg_right h (le_of_lt hp)
  exact (div_le_div_iff_of_pos_right hp).mpr (Int.cast_le.mpr (roundHalfAway_mono hm))

theorem decimalRound_ten (s : ℕ) : decimalRound s 10 = 10 := by
  unfold decimalRound
  have h1 : (10 : ℚ) * 10 ^ s = ((10 * 10 ^ s : ℤ) : ℚ) := by push_cast; ring
  rw [h1, roundHalfAway_intCast]
  have hp : (0 : ℚ) < 10 ^ s := by positivity
  push_cast
  field_simp

theorem decimalRound_zero (s : ℕ) : decimalRound s 0 = 0 := by
  unfold decimalRound
  have h1 : (0 : ℚ) * 10 ^ s = ((0 : ℤ) : ℚ) := by push_cast; ring
  rw [h1, roundHalfAway_intCast]
  simp

theorem ten_le_decimalRound {x : ℚ} (s : ℕ) (h : 10 ≤ x) : 10 ≤ decimalRound s x := by
  have := decimalRound_mono s h
  rwa [decimalRound_ten] at this

theorem decimalRound_nonpos {x : ℚ} (s : ℕ) (h : x ≤ 0) : decimalRound s x ≤ 0 := by
  have := decimalRound_mono s h
  rwa [decimalRound_zero] at this

theorem clampPrice_bounds (p : ℚ) : MinPrice ≤ clampPrice p ∧ clampPrice p ≤ MaxPrice := by
  unfold clampPrice MinPrice MaxPrice
  split_ifs with h1 h2
  · exact ⟨le_refl _, by norm_num⟩
  · exact ⟨by norm_num, le_refl _⟩
  · exact ⟨not_lt.mp h1, not_lt.mp h2⟩

theorem checkLimit_cases (l : PositionLimiter) (t : String) (δ : ℚ)
    (exps : List (String × ℚ)) :
    (checkLimit l t δ exps = some LimitError.perCell ↔
      l.maxPerCell < qabs (lookupExposure exps t + δ)) ∧
    (checkLimit l t δ exps = some LimitError.correlated ↔
      qabs (lookupExposure exps t + δ) ≤ l.maxPerCell ∧
        l.maxCorrelated < specCorrelated l t (lookupExposure exps t + δ) exps) ∧
    (checkLimit l t δ exps = none ↔
      qabs (lookupExposure exps t + δ) ≤ l.maxPerCell ∧
        specCorrelated l t (lookupExposure exps t + δ) exps ≤ l.maxCorrelated) := by
  simp only [checkLimit, correlatedTotal_eq_spec]
  split_ifs with h1 h2
  · refine ⟨iff_of_true rfl h1, iff_of_false (by simp) ?_, iff_of_false (by simp) ?_⟩
    · exact fun hc => absurd h1 (not_lt.mpr hc.1)
    · exact fun hc => absurd h1 (not_lt.mpr hc.1)
  · refine ⟨iff_of_false (by simp) ?_, iff_of_true rfl ⟨not_lt.mp h1, h2⟩,
      iff_of_false (by simp) ?_⟩
    · exact fun hc => absurd hc (not_lt.mp h1).not_lt
    · exact fun hc => absurd h2 (not_lt.mpr hc.2)
  · refine ⟨iff_of_false (by simp) ?_, iff_of_false (by simp) ?_, iff_of_true rfl
      ⟨not_lt.mp h1, not_lt.mp h2⟩⟩
    · exact fun hc => absurd hc (not_lt.mp h1).not_lt
    · exact fun hc => absurd hc.2 (not_lt.mp h2).not_lt

/-! ## Claim theorems -/

/-- C1: for every pair of share quantities `(qYes, qNo)` and every liquidity
`b > 0` — quantified here through the pricer oracle carrying the float
softmax results at those inputs — `PriceNo` equals `1 − Price`, both returned
prices lie in `[0.001, 0.999]`, and `Price + PriceNo = 1` holds exactly after
clamping, hence within `1e-7`. -/
theorem price_complement_and_clamp (po : PricerOracle) (b qYes qNo : ℚ) :
    PriceNo po b qYes qNo = 1 - Price po b qYes qNo ∧
    MinPrice ≤ Price po b qYes qNo ∧ Price po b qYes qNo ≤ MaxPrice ∧
    MinPrice ≤ PriceNo po b qYes qNo ∧ PriceNo po b qYes qNo ≤ MaxPrice ∧
    |Price po b qYes qNo + PriceNo po b qYes qNo - 1| ≤ 1 / 10 ^ 7 := by
  obtain ⟨hlo, hhi⟩ := clampPrice_bounds (po.softmaxRounded b qYes qNo)
  have hlo' : (1 : ℚ) / 1000 ≤ clampPrice (po.softmaxRounded b qYes qNo) := hlo
  have hhi' : clampPrice (po.softmaxRounded b qYes qNo) ≤ 999 / 1000 := hhi
  have hp : Price po b qYes qNo = clampPrice (po.softmaxRounded b qYes qNo) := rfl
  have hno : PriceNo po b qYes qNo = 1 - Price po b qYes qNo := rfl
  have hz : Price po b qYes qNo + PriceNo po b qYes qNo - 1 = 0 := by rw [hno]; ring
  refine ⟨rfl, hp ▸ hlo, hp ▸ hhi, ?_, ?_, ?_⟩
  · show (1 : ℚ) / 1000 ≤ PriceNo po b qYes qNo
    rw [hno, hp]
    linarith
  · show PriceNo po b qYes qNo ≤ 999 / 1000
    rw [hno, hp]
    linarith
  · rw [hz, abs_zero]
    positivity

/-- C4: `CheckLimit` fails `PerCellLimitExceeded` iff
`|existing[targetCell] + exposureDelta| > maxPerCell` (missing keys read as
zero); otherwise it fails `CorrelatedLimitExceeded` iff the specification's
correlated total (`|newInCell|` plus `Σ |existing[c]|` over other cells with
the target's `prefixLen`-prefix) strictly exceeds `maxCorrelated`; otherwise
it returns OK.  Exposure equal to a limit passes both checks, and the
per-cell violation is reported first. -/
theorem checkLimit_characterization (l : PositionLimiter) (targetCell : String)
    (exposureDelta : ℚ) (exps : List (String × ℚ)) :
    (checkLimit l targetCell exposureDelta exps = some LimitError.perCell ↔
      l.maxPerCell < qabs (lookupExposure exps targetCell + exposureDelta)) ∧
    (checkLimit l targetCell exposureDelta exps = some LimitError.correlated ↔
      qabs (lookupExposure exps targetCell + exposureDelta) ≤ l.maxPerCell ∧
        l.maxCorrelated <
          specCorrelated l targetCell (lookupExposure exps targetCell + exposureDelta) exps) ∧
    (checkLimit l targetCell exposureDelta exps = none ↔
      qabs (lookupExposure exps targetCell + exposureDelta) ≤ l.maxPerCell ∧
        specCorrelated l targetCell (lookupExposure exps targetCell + exposureDelta) exps ≤
          l.maxCorrelated) :=
  checkLimit_cases l targetCell exposureDelta exps

/-- C5 counterexample: with `maxPerCell = 1000`, `maxCorrelated = 500`,
`prefixLen = 5`, an empty exposure snapshot and delta `1000` on cell
`"872a1070b"`, the new in-cell exposure equals `maxPerCell` exactly, yet the
trade is rejected with `CorrelatedLimitExceeded` — refuting the claim's
"if `|newInCell| = maxPerCell`, the trade is accepted". -/
theorem checkLimit_equal_limit_rejected :
    qabs (lookupExposure [] "872a1070b" + 1000) =
      (⟨1000, 500, 5⟩ : PositionLimiter).maxPerCell ∧
    checkLimit ⟨1000, 500, 5⟩ "872a1070b" 1000 [] = some LimitError.correlated := by
  have hl : lookupExposure [] "872a1070b" + 1000 = (1000 : ℚ) := by
    simp [lookupExposure]
  have hq : qabs (lookupExposure [] "872a1070b" + 1000) = (1000 : ℚ) := by
    rw [hl]
    norm_num [qabs]
  refine ⟨hq, ?_⟩
  apply (checkLimit_cases ⟨1000, 500, 5⟩ "872a1070b" 1000 []).2.1.mpr
  constructor
  · rw [hq]
  · show (500 : ℚ) < specCorrelated ⟨1000, 500, 5⟩ "872a1070b" _ []
    simp only [specCorrelated, List.filter_nil, List.map_nil, List.sum_nil, add_zero, hq]
    norm_num

/-- C5 (amended): if `|newInCell| > maxPerCell` the trade is rejected with
the per-cell error; if `|newInCell| ≤ maxPerCell` — equality included, so an
exposure exactly at the per-cell limit passes that check — the outcome
depends only on the correlated total: accepted iff the total is within
`maxCorrelated`, rejected `CorrelatedLimitExceeded` iff it exceeds it. -/
theorem checkLimit_monotonicity (l : PositionLimiter) (targetCell : String)
    (exposureDelta : ℚ) (exps : List (String × ℚ)) :
    (l.maxPerCell < qabs (lookupExposure exps targetCell + exposureDelta) →
      checkLimit l targetCell exposureDelta exps = some LimitError.perCell) ∧
    (qabs (lookupExposure exps targetCell + exposureDelta) ≤ l.maxPerCell →
      ((checkLimit l targetCell exposureDelta exps = none ↔
        specCorrelated l targetCell (lookupExposure exps targetCell + exposureDelta) exps ≤
          l.maxCorrelated) ∧
       (checkLimit l targetCell exposureDelta exps = some LimitError.correlated ↔
        l.maxCorrelated <
          specCorrelated l targetCell (lookupExposure exps targetCell + exposureDelta) exps))) := by
  obtain ⟨h1, h2, h3⟩ := checkLimit_cases l targetCell exposureDelta exps
  refine ⟨fun h => h1.mpr h, fun h => ⟨⟨fun hn => (h3.mp hn).2, fun hc => h3.mpr ⟨h, hc⟩⟩,
    ⟨fun hn => (h2.mp hn).2, fun hc => h2.mpr ⟨h, hc⟩⟩⟩⟩

/-- C5 witness: the amended statement at the spec's seed scenario
(`maxPerCell = 1000`, `maxCorrelated = 5000`, `prefixLen = 5`, existing
exposure 950 on the traded cell): delta 100 overflows the per-cell cap. -/
theorem checkLimit_monotonicity_witness :
    (⟨1000, 5000, 5⟩ : PositionLimiter).maxPerCell <
      qabs (lookupExposure [("872a1070b", 950)] "872a1070b" + 100) ∧
    checkLimit ⟨1000, 5000, 5⟩ "872a1070b" 100 [("872a1070b", 950)] =
      some LimitError.perCell := by
  have h :=
    (checkLimit_monotonicity ⟨1000, 5000, 5⟩ "872a1070b" 100 [("872a1070b", 950)]).1
  have hl : lookupExposure [("872a1070b", 950)] "872a1070b" + 100 = (1050 : ℚ) := by
    simp [lookupExposure, List.lookup]
    norm_num
  have hlt : (⟨1000, 5000, 5⟩ : PositionLimiter).maxPerCell <
      qabs (lookupExposure [("872a1070b", 950)] "872a1070b" + 100) := by
    show (1000 : ℚ) < qabs _
    rw [hl]
    norm_num [qabs]
  exact ⟨hlt, h hlt⟩

/-- C8: the liquidity deriver returns the `baseVolume · IQR / P50` formula
value (at the source's decimal precision, floored at 10) when `P50 > 0` and
`IQR > 0`; the `baseVolume · IQR` formula value (floored at 10) when
`P50 ≤ 0` and `IQR > 0`; the minimum floor 10 when `IQR ≤ 0` (for positive
`baseVolume`); the result is always at least 10; and the constructor variant
fails exactly when the promised `IQR > 0` or `median > 0` does not hold. -/
theorem deriveLiquidity_spec (p25 p50 p75 base : ℚ) :
    (0 < p50 → 0 < p75 - p25 →
      DeriveLiquidity ⟨p25, p50, p75⟩ base =
        (if base * decimalDiv (p75 - p25) p50 < 10 then 10
         else decimalRound 2 (base * decimalDiv (p75 - p25) p50))) ∧
    (p50 ≤ 0 → 0 < p75 - p25 →
      DeriveLiquidity ⟨p25, p50, p75⟩ base =
        (if base * (p75 - p25) < 10 then 10 else decimalRound 2 (base * (p75 - p25)))) ∧
    (0 < base → p75 - p25 ≤ 0 → DeriveLiquidity ⟨p25, p50, p75⟩ base = 10) ∧
    (10 ≤ DeriveLiquidity ⟨p25, p50, p75⟩ base) ∧
    ((∃ e, NewMarketMakerFromNWSConfidence p25 p75 p50 base = Except.error e) ↔
      p50 ≤ 0 ∨ p75 - p25 ≤ 0) := by
  refine ⟨?_, ?_, ?_, ?_, ?_⟩
  · intro h50 _
    simp only [DeriveLiquidity]
    rw [if_neg (not_le.mpr h50)]
  · intro h50 hiqr
    simp only [DeriveLiquidity]
    rw [if_pos h50, if_neg (not_le.mpr hiqr)]
  · intro hbase hiqr
    simp only [DeriveLiquidity]
    by_cases h50 : p50 ≤ 0
    · rw [if_pos h50, if_pos hiqr]
    · rw [if_neg h50]
      have hbpos : 0 < p50 := not_le.mp h50
      have hdiv : (p75 - p25) / p50 ≤ 0 := by
        have h0 := (div_le_div_iff_of_pos_right hbpos).mpr hiqr
        rwa [zero_div] at h0
      have hcv : decimalDiv (p75 - p25) p50 ≤ 0 := decimalRound_nonpos _ hdiv
      have hb : base * decimalDiv (p75 - p25) p50 ≤ 0 := by
        have := mul_le_mul_of_nonneg_left hcv (le_of_lt hbase)
        simpa using this
      rw [if_pos (lt_of_le_of_lt hb (by norm_num))]
  · simp only [DeriveLiquidity]
    split_ifs with h1 h2 h3 h4
    · norm_num
    · norm_num
    · exact ten_le_decimalRound 2 (not_lt.mp h3)
    · norm_num
    · exact ten_le_decimalRound 2 (not_lt.mp h4)
  · constructor
    · rintro ⟨e, he⟩
      by_cases h1 : p50 ≤ 0
      · exact Or.inl h1
      · by_cases h2 : p75 - p25 ≤ 0
        · exact Or.inr h2
        · exfalso
          simp only [NewMarketMakerFromNWSConfidence] at he
          rw [if_neg h1, if_neg h2] at he
          split_ifs at he
    · rintro (h | h)
      · exact ⟨"lmsr: median must be positive", by
          simp only [NewMarketMakerFromNWSConfidence]
          rw [if_pos h]⟩
      · by_cases h1 : p50 ≤ 0
        · exact ⟨"lmsr: median must be positive", by
            simp only [NewMarketMakerFromNWSConfidence]
            rw [if_pos h1]⟩
        · exact ⟨"lmsr: 75th percentile must exceed 25th percentile", by
            simp only [NewMarketMakerFromNWSConfidence]
            rw [if_neg h1, if_pos h]⟩

/-- C9: `Broadcast` never blocks the caller: it is a total function handing
the successor hub state straight back, its result carries no error component,
a full bounded queue means the message is dropped and the hub is unchanged,
a queue with room receives the message, and the queue never grows past its
bound — so trade execution is never stalled by slow or disconnected
subscribers. -/
theorem broadcast_drop_on_overflow (h : WSHub) (msg : WSMessage) :
    (wsQueueCapacity ≤ h.queue.length → Broadcast h msg = h) ∧
    (h.queue.length < wsQueueCapacity → (Broadcast h msg).queue = h.queue ++ [msg]) ∧
    (Broadcast h msg).queue.length ≤ max h.queue.length wsQueueCapacity := by
  unfold Broadcast
  by_cases hlen : h.queue.length < wsQueueCapacity
  · rw [if_pos hlen]
    refine ⟨fun hc => absurd hlen (not_lt.mpr hc), fun _ => rfl, ?_⟩
    simp only [List.length_append, List.length_cons, List.length_nil]
    omega
  · rw [if_neg hlen]
    exact ⟨fun _ => rfl, fun hc => absurd hc hlen, le_max_left _ _⟩

theorem splitDash_ne_nil : ∀ cs : List Char, splitDash cs ≠ []
  | [] => by simp [splitDash]
  | c :: cs => by
    simp only [splitDash]
    cases h : splitDash cs with
    | nil => simp
    | cons g gs => split_ifs <;> simp

theorem splitDash_join : ∀ cs : List Char, joinDash (splitDash cs) = cs
  | [] => rfl
  | c :: cs => by
    have ih := splitDash_join cs
    cases h : splitDash cs with
    | nil => exact absurd h (splitDash_ne_nil cs)
    | cons g gs =>
      rw [h] at ih
      have hsd : splitDash (c :: cs) =
          if c = '-' then [] :: g :: gs else (c :: g) :: gs := by
        simp only [splitDash, h]
      rw [hsd]
      by_cases hc : c = '-'
      · rw [if_pos hc]
        simp only [joinDash, List.nil_append]
        rw [ih, hc]
      · rw [if_neg hc]
        cases gs with
        | nil =>
          simp only [joinDash] at ih ⊢
          rw [ih]
        | cons g2 gs2 =>
          simp only [joinDash] at ih ⊢
          rw [List.cons_append, ih]

theorem splitDash_groups_no_dash : ∀ cs : List Char, ∀ g ∈ splitDash cs, '-' ∉ g
  | [] => by
    intro g hg
    simp only [splitDash, List.mem_singleton] at hg
    subst hg
    simp
  | c :: cs => by
    intro g hg
    have ih := splitDash_groups_no_dash cs
    cases h : splitDash cs with
    | nil => exact absurd h (splitDash_ne_nil cs)
    | cons g0 gs =>
      have hsd : splitDash (c :: cs) =
          if c = '-' then [] :: g0 :: gs else (c :: g0) :: gs := by
        simp only [splitDash, h]
      rw [hsd] at hg
      by_cases hc : c = '-'
      · rw [if_pos hc] at hg
        rcases List.mem_cons.mp hg with hgg | hgg
        · subst hgg
          simp
        · exact ih g (by rw [h]; exact hgg)
      · rw [if_neg hc] at hg
        rcases List.mem_cons.mp hg with hgg | hgg
        · subst hgg
          intro hmem
          rcases List.mem_cons.mp hmem with hce | hmem2
          · exact hc hce.symm
          · exact ih g0 (by rw [h]; exact List.mem_cons_self g0 gs) hmem2
        · exact ih g (by rw [h]; exact List.mem_cons_of_mem g0 hgg)

theorem splitDash_of_no_dash : ∀ cs : List Char, '-' ∉ cs → splitDash cs = [cs]
  | [] => fun _ => rfl
  | c :: cs => fun h => by
    have hc : c ≠ '-' := fun hcc => h (hcc ▸ List.mem_cons_self c cs)
    have hcs : ('-' : Char) ∉ cs := fun hm => h (List.mem_cons_of_mem _ hm)
    simp only [splitDash, splitDash_of_no_dash cs hcs]
    rw [if_neg hc]

theorem splitDash_append (a rest : List Char) (ha : ('-' : Char) ∉ a) :
    splitDash (a ++ '-' :: rest) = a :: splitDash rest := by
  induction a with
  | nil =>
    simp only [List.nil_append, splitDash]
    cases h : splitDash rest with
    | nil => exact absurd h (splitDash_ne_nil rest)
    | cons g gs => simp
  | cons c a ih =>
    have hc : c ≠ '-' := fun hcc => ha (hcc ▸ List.mem_cons_self c a)
    have ha' : ('-' : Char) ∉ a := fun hm => ha (List.mem_cons_of_mem _ hm)
    have ih' := ih ha'
    have ih2 : splitDash (a.append ('-' :: rest)) = a :: splitDash rest := ih'
    simp only [List.cons_append, splitDash, ih', ih2]
    rw [if_neg hc]

theorem no_dash_of_all_hex {cs : List Char} (h : cs.all isHexLower = true) :
    ('-' : Char) ∉ cs := fun hm =>
  absurd (List.all_eq_true.mp h _ hm) (by decide)

theorem no_dash_of_all_upper {cs : List Char} (h : cs.all isUpperAZ = true) :
    ('-' : Char) ∉ cs := fun hm =>
  absurd (List.all_eq_true.mp h _ hm) (by decide)

theorem no_dash_of_all_digit {cs : List Char} (h : cs.all isDigit09 = true) :
    ('-' : Char) ∉ cs := fun hm =>
  absurd (List.all_eq_true.mp h _ hm) (by decide)

theorem thresholdOK_no_dash {thr : List Char} (h : thresholdOK thr = true) :
    ('-' : Char) ∉ thr := by
  intro hmem
  simp only [thresholdOK, Bool.and_eq_true] at h
  obtain ⟨-, h2⟩ := h
  have hsplit := List.take_append_drop (thr.takeWhile isDigit09).length thr
  rw [← hsplit] at hmem
  rcases List.mem_append.mp hmem with hm | hm
  · have htk : thr.take (thr.takeWhile isDigit09).length = thr.takeWhile isDigit09 :=
      (List.prefix_iff_eq_take.mp (List.takeWhile_prefix _)).symm
    rw [htk] at hm
    exact absurd (List.mem_takeWhile_imp hm) (by decide)
  · exact absurd (List.all_eq_true.mp h2 _ hm) (by decide)

theorem parseDate8_eq (ds : List Char) :
    parseDate8 ds =
      if ValidDate (dateOfDigits ds) then some (dateOfDigits ds) else none := by
  simp only [parseDate8, ValidDate, dateOfDigits]

theorem tickerMatch_some_iff (s : String) (cell ty thr ds : List Char) :
    tickerMatch s = some (cell, ty, thr, ds) ↔
      (s.data = "ATMX".data ++ '-' :: (cell ++ '-' :: (ty ++ '-' :: (thr ++ '-' :: ds))) ∧
       cell ≠ [] ∧ cell.all isHexLower = true ∧ ty ≠ [] ∧ ty.all isUpperAZ = true ∧
       thresholdOK thr = true ∧ ds.length = 8 ∧ ds.all isDigit09 = true) := by
  constructor
  · intro h
    unfold tickerMatch at h
    split at h
    case h_2 => exact absurd h (by simp)
    case h_1 lead cell0 ty0 thr0 date0 heq =>
      split_ifs at h with hcond
      obtain ⟨hlead, hc1, hc2, ht1, ht2, hth, hd1, hd2⟩ := hcond
      simp only [Option.some.injEq, Prod.mk.injEq] at h
      obtain ⟨e1, e2, e3, e4⟩ := h
      subst e1; subst e2; subst e3; subst e4; subst hlead
      refine ⟨?_, hc1, hc2, ht1, ht2, hth, hd1, hd2⟩
      have hj := splitDash_join s.data
      rw [heq] at hj
      simp only [joinDash] at hj
      rw [← hj]
  · rintro ⟨hshape, hc1, hc2, ht1, ht2, hth, hd1, hd2⟩
    have hA : ('-' : Char) ∉ "ATMX".data := by decide
    have hsp : splitDash s.data = ["ATMX".data, cell, ty, thr, ds] := by
      rw [hshape]
      rw [splitDash_append _ _ hA, splitDash_append _ _ (no_dash_of_all_hex hc2),
        splitDash_append _ _ (no_dash_of_all_upper ht2),
        splitDash_append _ _ (thresholdOK_no_dash hth),
        splitDash_of_no_dash _ (no_dash_of_all_digit hd2)]
    simp only [tickerMatch, hsp]
    simp [hc1, hc2, ht1, ht2, hth, hd1, hd2]

theorem data_eq_of_mk_eq {ty : List Char} {t : String} (h : String.mk ty = t) :
    ty = t.data := congrArg String.data h

theorem validTypes_group_ok {ty : List Char} (h : String.mk ty ∈ validTypes) :
    ty ≠ [] ∧ ty.all isUpperAZ = true := by
  simp only [validTypes, List.mem_cons, List.not_mem_nil, or_false] at h
  rcases h with h | h | h | h
  · have he : ty = "PRECIP".data := data_eq_of_mk_eq h
    subst he
    exact ⟨by decide, by decide⟩
  · have he : ty = "TEMP".data := data_eq_of_mk_eq h
    subst he
    exact ⟨by decide, by decide⟩
  · have he : ty = "WIND".data := data_eq_of_mk_eq h
    subst he
    exact ⟨by decide, by decide⟩
  · have he : ty = "SNOW".data := data_eq_of_mk_eq h
    subst he
    exact ⟨by decide, by decide⟩

/-- C7: `ParseTicker` accepts exactly the strings
`ATMX-{cell}-{type}-{threshold}-{YYYYMMDD}` with `cell` matching `[0-9a-f]+`,
`type` in `{PRECIP, TEMP, WIND, SNOW}`, `threshold` matching `[0-9]+[A-Z]*`
and a valid Gregorian date, returning the parsed ticker, cell id, type,
threshold and expiry date (held at UTC midnight); on a regex match it fails
`UnsupportedType` when the type is not supported and `InvalidTicker` when the
date is invalid, and it fails `InvalidTicker` on a regex mismatch.  The
spec's seed ticker parses to its listed fields with expiry 2025-08-15, and
the three listed bad tickers fail. -/
theorem parseTicker_spec :
    (∀ s : String, (∃ c, ParseTicker s = Except.ok c) ↔ specTickerOK s) ∧
    (∀ (s : String) (cell ty thr ds : List Char),
      tickerMatch s = some (cell, ty, thr, ds) →
      ParseTicker s =
        (if String.mk ty ∈ validTypes then
          (if ValidDate (dateOfDigits ds) then
            Except.ok ⟨s, String.mk cell, String.mk ty, String.mk thr, dateOfDigits ds⟩
           else Except.error TickerError.invalidTicker)
         else Except.error TickerError.unsupportedType)) ∧
    (∀ s : String,
      tickerMatch s = none → ParseTicker s = Except.error TickerError.invalidTicker) ∧
    ParseTicker "ATMX-872a1070b-PRECIP-25MM-20250815" =
      Except.ok ⟨"ATMX-872a1070b-PRECIP-25MM-20250815", "872a1070b", "PRECIP", "25MM",
        ⟨2025, 8, 15⟩⟩ ∧
    ParseTicker "BTC-872a1070b-PRECIP-25MM-20250815" = Except.error TickerError.invalidTicker ∧
    ParseTicker "ATMX-ZZZZ-PRECIP-25MM-20250815" = Except.error TickerError.invalidTicker ∧
    ParseTicker "ATMX-cell-PRECIP-25MM-notadate" = Except.error TickerError.invalidTicker := by
  refine ⟨?_, ?_, ?_, rfl, rfl, rfl, rfl⟩
  · intro s
    constructor
    · rintro ⟨c, hc⟩
      unfold ParseTicker at hc
      split at hc
      case h_1 => exact absurd hc (by simp)
      case h_2 cell ty thr ds heq =>
        rw [parseDate8_eq] at hc
        split_ifs at hc with hty hd
        obtain ⟨hshape, h1, h2, _, h4, h5, h6, h7⟩ :=
          (tickerMatch_some_iff s cell ty thr ds).mp heq
        exact ⟨cell, ty, thr, ds, hshape, h1, h2, hty, h5, h6, h7, hd⟩
    · rintro ⟨cell, ty, thr, ds, hshape, h1, h2, hty, h5, h6, h7, hvd⟩
      obtain ⟨hne, hupper⟩ := validTypes_group_ok hty
      have hmatch : tickerMatch s = some (cell, ty, thr, ds) :=
        (tickerMatch_some_iff s cell ty thr ds).mpr
          ⟨hshape, h1, h2, hne, hupper, h5, h6, h7⟩
      refine ⟨⟨s, String.mk cell, String.mk ty, String.mk thr, dateOfDigits ds⟩, ?_⟩
      simp only [ParseTicker, hmatch, parseDate8_eq]
      rw [if_pos hty, if_pos hvd]
  · intro s cell ty thr ds h
    simp only [ParseTicker, h, parseDate8_eq]
    by_cases hty : String.mk ty ∈ validTypes
    · rw [if_pos hty, if_pos hty]
      by_cases hd : ValidDate (dateOfDigits ds)
      · rw [if_pos hd, if_pos hd]
      · rw [if_neg hd, if_neg hd]
    · rw [if_neg hty, if_neg hty]
  · intro s h
    simp only [ParseTicker, h]

theorem filterMapSum_append {α : Type} (p : α → Bool) (f : α → ℚ) (l : List α) (e : α) :
    (((l ++ [e]).filter p).map f).sum =
      ((l.filter p).map f).sum + (if p e = true then f e else 0) := by
  rw [List.filter_append, List.map_append, List.sum_append]
  congr 1
  by_cases h : p e = true
  · simp [List.filter_singleton, h]
  · simp [List.filter_singleton, h]

theorem filterMapSum_zero {α : Type} (p : α → Bool) (f : α → ℚ) (l : List α)
    (h : ∀ a ∈ l, p a = false) : ((l.filter p).map f).sum = 0 := by
  have hnil : l.filter p = [] := by
    induction l with
    | nil => rfl
    | cons a l ih =>
      rw [List.filter_cons, h a (List.mem_cons_self a l)]
      exact ih fun b hb => h b (List.mem_cons_of_mem a hb)
  simp [hnil]

theorem updateAggs_marketID (acc : List PosAgg) (e : LedgerEntry) :
    ∀ a ∈ updateAggs acc e,
      a.marketID = e.marketID ∨ ∃ a0 ∈ acc, a.marketID = a0.marketID := by
  intro a ha
  unfold updateAggs at ha
  split_ifs at ha with hany
  · obtain ⟨a0, ha0, hmap⟩ := List.mem_map.mp ha
    by_cases hmid : (a0.marketID == e.marketID) = true
    · rw [if_pos hmid] at hmap
      exact Or.inr ⟨a0, ha0, hmap ▸ rfl⟩
    · rw [if_neg hmid] at hmap
      exact Or.inr ⟨a0, ha0, hmap ▸ rfl⟩
  · rcases List.mem_append.mp ha with hm | hm
    · obtain ⟨a0, ha0, hmap⟩ := List.mem_map.mp (List.mem_map_of_mem id hm)
      exact Or.inr ⟨a0, ha0, by simp at hmap; rw [hmap]⟩
    · rw [List.mem_singleton.mp hm]
      exact Or.inl rfl

theorem applyEntry_marketID (a : PosAgg) (e : LedgerEntry) :
    (applyEntry a e).marketID = a.marketID := rfl

theorem updateAggs_step (acc : List PosAgg) (done : List LedgerEntry) (e : LedgerEntry)
    (hsum : ∀ a ∈ acc,
      a.yesQty = sumSideQty done a.marketID "YES" ∧
      a.noQty = sumOtherQty done a.marketID ∧
      a.costBasis = sumCostMid done a.marketID)
    (hcov : ∀ e2 ∈ done, ∃ a ∈ acc, a.marketID = e2.marketID) :
    (∀ a ∈ updateAggs acc e,
      a.yesQty = sumSideQty (done ++ [e]) a.marketID "YES" ∧
      a.noQty = sumOtherQty (done ++ [e]) a.marketID ∧
      a.costBasis = sumCostMid (done ++ [e]) a.marketID) ∧
    (∀ e2 ∈ done ++ [e], ∃ a ∈ updateAggs acc e, a.marketID = e2.marketID) := by
  have hyes : ∀ mid, sumSideQty (done ++ [e]) mid "YES" =
      sumSideQty done mid "YES" +
        (if (e.marketID == mid && e.side == "YES") = true then e.quantity else 0) :=
    fun mid => filterMapSum_append _ _ done e
  have hno : ∀ mid, sumOtherQty (done ++ [e]) mid =
      sumOtherQty done mid +
        (if (e.marketID == mid && e.side != "YES") = true then e.quantity else 0) :=
    fun mid => filterMapSum_append _ _ done e
  have hcost : ∀ mid, sumCostMid (done ++ [e]) mid =
      sumCostMid done mid + (if (e.marketID == mid) = true then e.cost else 0) :=
    fun mid => filterMapSum_append _ _ done e
  unfold updateAggs
  by_cases hany : acc.any (fun a => a.marketID == e.marketID) = true
  · rw [if_pos hany]
    constructor
    · intro a2 ha2
      obtain ⟨a, ha, hmap⟩ := List.mem_map.mp ha2
      obtain ⟨hy, hn, hc⟩ := hsum a ha
      by_cases hmid : (a.marketID == e.marketID) = true
      · rw [if_pos hmid] at hmap
        subst hmap
        have hmid2 : a.marketID = e.marketID := beq_iff_eq.mp hmid
        refine ⟨?_, ?_, ?_⟩
        · rw [applyEntry_marketID, hyes a.marketID, ← hy]
          by_cases hside : e.side = "YES" <;>
            simp [applyEntry, hmid2, hside]
        · rw [applyEntry_marketID, hno a.marketID, ← hn]
          by_cases hside : e.side = "YES" <;>
            simp [applyEntry, hmid2, hside]
        · rw [applyEntry_marketID, hcost a.marketID, ← hc]
          simp [applyEntry, hmid2]
      · rw [if_neg hmid] at hmap
        subst hmap
        have hne : a.marketID ≠ e.marketID := by simpa using hmid
        refine ⟨?_, ?_, ?_⟩
        · rw [hyes a.marketID, ← hy]
          simp [hne.symm]
        · rw [hno a.marketID, ← hn]
          simp [hne.symm]
        · rw [hcost a.marketID, ← hc]
          simp [hne.symm]
    · intro e2 he2
      rcases List.mem_append.mp he2 with hm | hm
      · obtain ⟨a, ha, hmid⟩ := hcov e2 hm
        refine ⟨if (a.marketID == e.marketID) = true then applyEntry a e else a,
          List.mem_map.mpr ⟨a, ha, rfl⟩, ?_⟩
        by_cases h0 : (a.marketID == e.marketID) = true
        · rw [if_pos h0, applyEntry_marketID]
          exact hmid
        · rw [if_neg h0]
          exact hmid
      · rw [List.mem_singleton.mp hm]
        obtain ⟨a, ha, hmid⟩ := List.any_eq_true.mp hany
        refine ⟨if (a.marketID == e.marketID) = true then applyEntry a e else a,
          List.mem_map.mpr ⟨a, ha, rfl⟩, ?_⟩
        rw [if_pos hmid, applyEntry_marketID]
        exact beq_iff_eq.mp hmid
  · rw [if_neg hany]
    have hnotin : ∀ e2 ∈ done, e2.marketID ≠ e.marketID := by
      intro e2 he2 hcontra
      obtain ⟨a, ha, hmid⟩ := hcov e2 he2
      exact hany (List.any_eq_true.mpr ⟨a, ha, beq_iff_eq.mpr (hmid.trans hcontra)⟩)
    have hz1 : sumSideQty done e.marketID "YES" = 0 :=
      filterMapSum_zero _ _ done fun e2 he2 => by
        simp only [Bool.and_eq_false_iff, beq_eq_false_iff_ne, ne_eq]
        exact Or.inl (hnotin e2 he2)
    have hz2 : sumOtherQty done e.marketID = 0 :=
      filterMapSum_zero _ _ done fun e2 he2 => by
        simp only [Bool.and_eq_false_iff, beq_eq_false_iff_ne, ne_eq]
        exact Or.inl (hnotin e2 he2)
    have hz3 : sumCostMid done e.marketID = 0 :=
      filterMapSum_zero _ _ done fun e2 he2 => by
        simp only [beq_eq_false_iff_ne, ne_eq]
        exact hnotin e2 he2
    constructor
    · intro a2 ha2
      rcases List.mem_append.mp ha2 with hm | hm
      · obtain ⟨hy, hn, hc⟩ := hsum a2 hm
        have hne : a2.marketID ≠ e.marketID := fun hcontra =>
          hany (List.any_eq_true.mpr ⟨a2, hm, beq_iff_eq.mpr hcontra⟩)
        refine ⟨?_, ?_, ?_⟩
        · rw [hyes a2.marketID, ← hy]
          simp [hne.symm]
        · rw [hno a2.marketID, ← hn]
          simp [hne.symm]
        · rw [hcost a2.marketID, ← hc]
          simp [hne.symm]
      · rw [List.mem_singleton.mp hm]
        refine ⟨?_, ?_, ?_⟩
        · rw [applyEntry_marketID, hyes, hz1, zero_add]
          by_cases hside : e.side = "YES" <;> simp [applyEntry, hside]
        · rw [applyEntry_marketID, hno, hz2, zero_add]
          by_cases hside : e.side = "YES" <;> simp [applyEntry, hside]
        · rw [applyEntry_marketID, hcost, hz3, zero_add]
          simp [applyEntry]
    · intro e2 he2
      rcases List.mem_append.mp he2 with hm | hm
      · obtain ⟨a, ha, hmid⟩ := hcov e2 hm
        exact ⟨a, List.mem_append_left _ ha, hmid⟩
      · rw [List.mem_singleton.mp hm]
        exact ⟨applyEntry
          { marketID := e.marketID, contractID := e.contractID, yesQty := 0, noQty := 0,
            costBasis := 0 } e, List.mem_append_right _ (List.mem_singleton_self _), rfl⟩

theorem foldl_updateAggs_spec :
    ∀ (entries : List LedgerEntry) (acc : List PosAgg) (done : List LedgerEntry),
    (∀ a ∈ acc,
      a.yesQty = sumSideQty done a.marketID "YES" ∧
      a.noQty = sumOtherQty done a.marketID ∧
      a.costBasis = sumCostMid done a.marketID) →
    (∀ e2 ∈ done, ∃ a ∈ acc, a.marketID = e2.marketID) →
    (∀ a ∈ entries.foldl updateAggs acc,
      a.yesQty = sumSideQty (done ++ entries) a.marketID "YES" ∧
      a.noQty = sumOtherQty (done ++ entries) a.marketID ∧
      a.costBasis = sumCostMid (done ++ entries) a.marketID) ∧
    (∀ e2 ∈ done ++ entries, ∃ a ∈ entries.foldl updateAggs acc, a.marketID = e2.marketID)
  | [], acc, done => by
    intro hsum hcov
    simpa using ⟨hsum, hcov⟩
  | e :: es, acc, done => by
    intro hsum hcov
    obtain ⟨hs, hc⟩ := updateAggs_step acc done e hsum hcov
    have h := foldl_updateAggs_spec es (updateAggs acc e) (done ++ [e]) hs hc
    simpa [List.foldl_cons, List.append_assoc] using h

theorem sumSideQty_filter_user (l : List LedgerEntry) (uid mid side : String) :
    sumSideQty (l.filter fun e => e.userID == uid) mid side = sumQtyFor l uid mid side := by
  unfold sumSideQty sumQtyFor
  rw [List.filter_filter]
  congr 1
  congr 1
  exact List.filter_congr fun e _ => Bool.and_comm _ _

theorem sumOtherQty_filter_user (l : List LedgerEntry) (uid mid : String)
    (hside : ∀ e ∈ l, e.side = "YES" ∨ e.side = "NO") :
    sumOtherQty (l.filter fun e => e.userID == uid) mid = sumQtyFor l uid mid "NO" := by
  unfold sumOtherQty sumQtyFor
  rw [List.filter_filter]
  congr 1
  congr 1
  refine List.filter_congr fun e he => ?_
  rcases hside e he with h | h <;> simp [h, Bool.and_comm]

theorem sumCostMid_filter_user (l : List LedgerEntry) (uid mid : String) :
    sumCostMid (l.filter fun e => e.userID == uid) mid = sumCostFor l uid mid := by
  unfold sumCostMid sumCostFor
  rw [List.filter_filter]
  congr 1
  congr 1
  exact List.filter_congr fun e _ => Bool.and_comm _ _

theorem addExposure_step (m : List (String × ℚ)) (done : List Position) (p : Position)
    (hsum : ∀ kv ∈ m, kv.2 = sumNetForCell done kv.1 ∧ kv.1 ≠ "")
    (hcov : ∀ q ∈ done, q.h3CellID ≠ "" → ∃ kv ∈ m, kv.1 = q.h3CellID) :
    (∀ kv ∈ (if p.h3CellID ≠ "" then addExposure m p.h3CellID p.netQty else m),
      kv.2 = sumNetForCell (done ++ [p]) kv.1 ∧ kv.1 ≠ "") ∧
    (∀ q ∈ done ++ [p], q.h3CellID ≠ "" →
      ∃ kv ∈ (if p.h3CellID ≠ "" then addExposure m p.h3CellID p.netQty else m),
        kv.1 = q.h3CellID) := by
  have hadd : ∀ cell, sumNetForCell (done ++ [p]) cell =
      sumNetForCell done cell + (if (p.h3CellID == cell) = true then p.netQty else 0) :=
    fun cell => filterMapSum_append _ _ done p
  by_cases hp : p.h3CellID ≠ ""
  · rw [if_pos hp]
    unfold addExposure
    by_cases hany : m.any (fun kv => kv.1 == p.h3CellID) = true
    · rw [if_pos hany]
      constructor
      · intro kv2 hkv2
        obtain ⟨kv, hkv, hmap⟩ := List.mem_map.mp hkv2
        obtain ⟨hv, hk⟩ := hsum kv hkv
        by_cases hkey : (kv.1 == p.h3CellID) = true
        · rw [if_pos hkey] at hmap
          subst hmap
          have hkey2 : kv.1 = p.h3CellID := beq_iff_eq.mp hkey
          exact ⟨by rw [hadd kv.1, ← hv]; simp [hkey2], hk⟩
        · rw [if_neg hkey] at hmap
          subst hmap
          have hne : kv.1 ≠ p.h3CellID := by simpa using hkey
          exact ⟨by rw [hadd kv.1, ← hv]; simp [hne.symm], hk⟩
      · intro q hq hq3
        rcases List.mem_append.mp hq with hm2 | hm2
        · obtain ⟨kv, hkv, hkey⟩ := hcov q hm2 hq3
          refine ⟨if (kv.1 == p.h3CellID) = true then (kv.1, kv.2 + p.netQty) else kv,
            List.mem_map.mpr ⟨kv, hkv, rfl⟩, ?_⟩
          by_cases h0 : (kv.1 == p.h3CellID) = true
          · rw [if_pos h0]
            exact hkey
          · rw [if_neg h0]
            exact hkey
        · rw [List.mem_singleton.mp hm2]
          obtain ⟨kv, hkv, hkey⟩ := List.any_eq_true.mp hany
          refine ⟨if (kv.1 == p.h3CellID) = true then (kv.1, kv.2 + p.netQty) else kv,
            List.mem_map.mpr ⟨kv, hkv, rfl⟩, ?_⟩
          rw [if_pos hkey]
          exact beq_iff_eq.mp hkey
    · rw [if_neg hany]
      have hnotin : ∀ q ∈ done, q.h3CellID ≠ p.h3CellID := by
        intro q hq hcontra
        by_cases hq3 : q.h3CellID = ""
        · exact hp (hcontra ▸ hq3)
        · obtain ⟨kv, hkv, hkey⟩ := hcov q hq hq3
          exact hany (List.any_eq_true.mpr ⟨kv, hkv, beq_iff_eq.mpr (hkey.trans hcontra)⟩)
      have hz : sumNetForCell done p.h3CellID = 0 :=
        filterMapSum_zero _ _ done fun q hq => by
          simp only [beq_eq_false_iff_ne, ne_eq]
          exact hnotin q hq
      constructor
      · intro kv2 hkv2
        rcases List.mem_append.mp hkv2 with hm2 | hm2
        · obtain ⟨hv, hk⟩ := hsum kv2 hm2
          have hne : kv2.1 ≠ p.h3CellID := fun hcontra =>
            hany (List.any_eq_true.mpr ⟨kv2, hm2, beq_iff_eq.mpr hcontra⟩)
          exact ⟨by rw [hadd kv2.1, ← hv]; simp [hne.symm], hk⟩
        · rw [List.mem_singleton.mp hm2]
          refine ⟨?_, hp⟩
          show p.netQty = sumNetForCell (done ++ [p]) p.h3CellID
          rw [hadd p.h3CellID, hz, zero_add, if_pos (beq_iff_eq.mpr rfl)]
      · intro q hq hq3
        rcases List.mem_append.mp hq with hm2 | hm2
        · obtain ⟨kv, hkv, hkey⟩ := hcov q hm2 hq3
          exact ⟨kv, List.mem_append_left _ hkv, hkey⟩
        · rw [List.mem_singleton.mp hm2]
          exact ⟨(p.h3CellID, p.netQty),
            List.mem_append_right _ (List.mem_singleton_self _), rfl⟩
  · rw [if_neg hp]
    have hp2 : p.h3CellID = "" := not_not.mp (by simpa using hp)
    constructor
    · intro kv hkv
      obtain ⟨hv, hk⟩ := hsum kv hkv
      have hne : p.h3CellID ≠ kv.1 := fun hcontra => hk (hcontra ▸ hp2)
      exact ⟨by rw [hadd kv.1, ← hv]; simp [hne], hk⟩
    · intro q hq hq3
      rcases List.mem_append.mp hq with hm2 | hm2
      · exact hcov q hm2 hq3
      · rw [List.mem_singleton.mp hm2] at hq3
        exact absurd hp2 hq3

theorem foldl_addExposure_spec :
    ∀ (ps : List Position) (m : List (String × ℚ)) (done : List Position),
    (∀ kv ∈ m, kv.2 = sumNetForCell done kv.1 ∧ kv.1 ≠ "") →
    (∀ q ∈ done, q.h3CellID ≠ "" → ∃ kv ∈ m, kv.1 = q.h3CellID) →
    ∀ kv ∈ ps.foldl
        (fun m p => if p.h3CellID ≠ "" then addExposure m p.h3CellID p.netQty else m) m,
      kv.2 = sumNetForCell (done ++ ps) kv.1 ∧ kv.1 ≠ ""
  | [], m, done => by
    intro hsum _
    simpa using hsum
  | p :: ps, m, done => by
    intro hsum hcov
    obtain ⟨hs, hc⟩ := addExposure_step m done p hsum hcov
    have h := foldl_addExposure_spec ps
      (if p.h3CellID ≠ "" then addExposure m p.h3CellID p.netQty else m) (done ++ [p]) hs hc
    intro kv hkv
    have h2 := h kv (by simpa [List.foldl_cons] using hkv)
    simpa [List.append_assoc] using h2

/-- C6: for every user and every ledger contents (entries carrying the data
model's sides YES or NO), each Position returned by `GetUserPositions`
satisfies `yesQty = Σ quantity` over that user's YES entries for the market,
`noQty = Σ quantity` over the NO entries, `netQty = yesQty − noQty` and
`costBasis = Σ cost`; and `GetUserCellExposures` maps each cell it lists to
the sum of `netQty` over that cell's positions.  Both are derived from the
ledger alone — the store holds no position table to read. -/
theorem getUserPositions_spec (s : MemoryStore) (uid : String)
    (hside : ∀ e ∈ s.ledger, e.side = "YES" ∨ e.side = "NO") :
    ∀ positions, MemoryStore.getUserPositions s uid = Except.ok positions →
      (∀ p ∈ positions,
        p.yesQty = sumQtyFor s.ledger uid p.marketID "YES" ∧
        p.noQty = sumQtyFor s.ledger uid p.marketID "NO" ∧
        p.netQty = p.yesQty - p.noQty ∧
        p.costBasis = sumCostFor s.ledger uid p.marketID) ∧
      (∀ exps, MemoryStore.getUserCellExposures s uid = Except.ok exps →
        ∀ kv ∈ exps, kv.2 = sumNetForCell positions kv.1 ∧ kv.1 ≠ "") := by
  intro positions hpos
  have hX := hpos
  unfold MemoryStore.getUserPositions at hX
  simp only [Except.ok.injEq] at hX
  obtain ⟨hsum, hcov⟩ := foldl_updateAggs_spec (s.ledger.filter fun e => e.userID == uid) [] []
    (fun a ha => absurd ha (List.not_mem_nil a))
    (fun e he => absurd he (List.not_mem_nil e))
  simp only [List.nil_append] at hsum hcov
  constructor
  · intro p hp
    rw [← hX] at hp
    obtain ⟨a, ha, hmk⟩ := List.mem_map.mp hp
    obtain ⟨hy, hn, hc⟩ := hsum a ha
    subst hmk
    refine ⟨?_, ?_, rfl, ?_⟩
    · show a.yesQty = sumQtyFor s.ledger uid a.marketID "YES"
      rw [hy, sumSideQty_filter_user]
    · show a.noQty = sumQtyFor s.ledger uid a.marketID "NO"
      rw [hn, sumOtherQty_filter_user _ _ _ hside]
    · show a.costBasis = sumCostFor s.ledger uid a.marketID
      rw [hc, sumCostMid_filter_user]
  · intro exps hexps kv hkv
    unfold MemoryStore.getUserCellExposures at hexps
    rw [hpos] at hexps
    simp only [Except.ok.injEq] at hexps
    rw [← hexps] at hkv
    have h := foldl_addExposure_spec positions [] []
      (fun kv2 hkv2 => absurd hkv2 (List.not_mem_nil kv2))
      (fun q hq => absurd hq (List.not_mem_nil q)) kv hkv
    simpa using h

/-- Shared case analysis of one `ExecuteTrade` run: every non-internal error
exit leaves the state untouched with a write-free trace; every trace passes
the update-before-insert scan; and an appended entry implies the matching
state update was made and succeeded. -/
theorem executeTrade_discipline {σ : Type} (ops : StoreOps σ) (po : PricerOracle)
    (lim : PositionLimiter) (req : TradeRequest) (uuid : String) (now : ℕ) (s : σ) :
    (∀ e, (executeTrade ops po lim req uuid now s).res = Except.error e →
      e.kind ≠ ErrKind.internalError →
      (executeTrade ops po lim req uuid now s).state = s ∧
      ((executeTrade ops po lim req uuid now s).calls.all fun c => !c.isWrite) = true) ∧
    writesOrdered (executeTrade ops po lim req uuid now s).calls = true ∧
    (∀ entry,
      StoreCall.insertLedgerEntry entry ∈ (executeTrade ops po lim req uuid now s).calls →
      ∃ m σ2, ops.getMarketByContract s req.contractID = Except.ok m ∧
        entry = tradeEntryOf po m req uuid now ∧
        StoreCall.updateMarketState m.id (tradeNewQYes m req) (tradeNewQNo m req)
            (Price po m.b (tradeNewQYes m req) (tradeNewQNo m req))
            (PriceNo po m.b (tradeNewQYes m req) (tradeNewQNo m req)) ∈
          (executeTrade ops po lim req uuid now s).calls ∧
        ops.updateMarketState s m.id (tradeNewQYes m req) (tradeNewQNo m req)
          (Price po m.b (tradeNewQYes m req) (tradeNewQNo m req))
          (PriceNo po m.b (tradeNewQYes m req) (tradeNewQNo m req)) = Except.ok σ2) := by
  by_cases h1 : req.userID = ""
  · simp only [executeTrade, if_pos h1]
    exact ⟨fun e _ _ => ⟨by simp, by simp [StoreCall.isWrite]⟩, rfl, fun entry hmem => absurd hmem (by simp)⟩
  by_cases h2 : req.side ≠ "YES" ∧ req.side ≠ "NO"
  · simp only [executeTrade, if_neg h1, if_pos h2]
    exact ⟨fun e _ _ => ⟨by simp, by simp [StoreCall.isWrite]⟩, rfl, fun entry hmem => absurd hmem (by simp)⟩
  by_cases h3 : req.quantity = 0
  · simp only [executeTrade, if_neg h1, if_neg h2, if_pos h3]
    exact ⟨fun e _ _ => ⟨by simp, by simp [StoreCall.isWrite]⟩, rfl, fun entry hmem => absurd hmem (by simp)⟩
  cases hm : ops.getMarketByContract s req.contractID with
  | error em =>
    simp only [executeTrade, if_neg h1, if_neg h2, if_neg h3, hm]
    exact ⟨fun e _ _ => ⟨by simp, by simp [StoreCall.isWrite]⟩, rfl, fun entry hmem => absurd hmem (by simp)⟩
  | ok market =>
    by_cases h4 : market.status ≠ "open"
    · simp only [executeTrade, if_neg h1, if_neg h2, if_neg h3, hm, if_pos h4]
      exact ⟨fun e _ _ => ⟨by simp, by simp [StoreCall.isWrite]⟩, rfl, fun entry hmem => absurd hmem (by simp)⟩
    by_cases h5 : market.b ≤ 0
    · simp only [executeTrade, if_neg h1, if_neg h2, if_neg h3, hm, if_neg h4, if_pos h5]
      refine ⟨?_, rfl, fun entry hmem => absurd hmem (by simp)⟩
      intro e hres hkind
      simp only [Except.error.injEq] at hres
      subst hres
      exact absurd rfl hkind
    cases hexp : ops.getUserCellExposures s req.userID with
    | error ee =>
      simp only [executeTrade, if_neg h1, if_neg h2, if_neg h3, hm, if_neg h4, if_neg h5, hexp]
      refine ⟨?_, rfl, fun entry hmem => absurd hmem (by simp)⟩
      intro e hres hkind
      simp only [Except.error.injEq] at hres
      subst hres
      exact absurd rfl hkind
    | ok exposures =>
      cases hlim : checkLimit lim market.h3CellID (exposureDeltaOf req) exposures with
      | some le =>
        simp only [executeTrade, if_neg h1, if_neg h2, if_neg h3, hm, if_neg h4, if_neg h5,
          hexp, hlim]
        exact ⟨fun e _ _ => ⟨by simp, by simp [StoreCall.isWrite]⟩, rfl, fun entry hmem => absurd hmem (by simp)⟩
      | none =>
        by_cases hval : tradeValidateOK po market req = false
        · simp only [executeTrade, if_neg h1, if_neg h2, if_neg h3, hm, if_neg h4, if_neg h5,
            hexp, hlim, if_pos hval]
          exact ⟨fun e _ _ => ⟨by simp, by simp [StoreCall.isWrite]⟩, rfl, fun entry hmem => absurd hmem (by simp)⟩
        cases hupd : ops.updateMarketState s market.id (tradeNewQYes market req)
            (tradeNewQNo market req)
            (Price po market.b (tradeNewQYes market req) (tradeNewQNo market req))
            (PriceNo po market.b (tradeNewQYes market req) (tradeNewQNo market req)) with
        | error eu =>
          simp only [executeTrade, if_neg h1, if_neg h2, if_neg h3, hm, if_neg h4, if_neg h5,
            hexp, hlim, if_neg hval, hupd]
          refine ⟨?_, rfl, fun entry hmem => absurd hmem (by simp)⟩
          intro e hres hkind
          simp only [Except.error.injEq] at hres
          subst hres
          exact absurd rfl hkind
        | ok s2 =>
          cases hins : ops.insertLedgerEntry s2 (tradeEntryOf po market req uuid now) with
          | error ei =>
            simp only [executeTrade, if_neg h1, if_neg h2, if_neg h3, hm, if_neg h4, if_neg h5,
              hexp, hlim, if_neg hval, hupd, hins]
            refine ⟨?_, rfl, ?_⟩
            · intro e hres hkind
              simp only [Except.error.injEq] at hres
              subst hres
              exact absurd rfl hkind
            · intro entry hmem
              simp only [List.mem_cons, List.not_mem_nil, or_false] at hmem
              rcases hmem with h0 | h0 | h0 | h0
              · exact absurd h0 (by simp)
              · exact absurd h0 (by simp)
              · exact absurd h0 (by simp)
              · exact ⟨market, s2, rfl, by simpa using h0, by simp, hupd⟩
          | ok s3 =>
            cases hp : ops.getUserPositions s3 req.userID with
            | error ep =>
              simp only [executeTrade, if_neg h1, if_neg h2, if_neg h3, hm, if_neg h4,
                if_neg h5, hexp, hlim, if_neg hval, hupd, hins, hp]
              refine ⟨?_, rfl, ?_⟩
              · intro e hres _
                simp at hres
              · intro entry hmem
                simp only [List.mem_cons, List.not_mem_nil, or_false] at hmem
                rcases hmem with h0 | h0 | h0 | h0 | h0
                · exact absurd h0 (by simp)
                · exact absurd h0 (by simp)
                · exact absurd h0 (by simp)
                · exact ⟨market, s2, rfl, by simpa using h0, by simp, hupd⟩
                · exact absurd h0 (by simp)
            | ok ps =>
              simp only [executeTrade, if_neg h1, if_neg h2, if_neg h3, hm, if_neg h4,
                if_neg h5, hexp, hlim, if_neg hval, hupd, hins, hp]
              refine ⟨?_, rfl, ?_⟩
              · intro e hres _
                simp at hres
              · intro entry hmem
                simp only [List.mem_cons, List.not_mem_nil, or_false] at hmem
                rcases hmem with h0 | h0 | h0 | h0 | h0
                · exact absurd h0 (by simp)
                · exact absurd h0 (by simp)
                · exact absurd h0 (by simp)
                · exact ⟨market, s2, rfl, by simpa using h0, by simp, hupd⟩
                · exact absurd h0 (by simp)

/-- How each pre-write rejection of `ExecuteTrade` is classified: validation
failures as `BadRequest`, a missing market as `NotFound`, a closed market, a
limiter refusal (with the limiter's message) and a price-bound refusal as
`Conflict`. -/
theorem executeTrade_error_mapping {σ : Type} (ops : StoreOps σ) (po : PricerOracle)
    (lim : PositionLimiter) (req : TradeRequest) (uuid : String) (now : ℕ) (s : σ)
    (e : TradeError)
    (hres : (executeTrade ops po lim req uuid now s).res = Except.error e) :
    ((req.userID = "" ∨ (req.side ≠ "YES" ∧ req.side ≠ "NO") ∨ req.quantity = 0) →
      e.kind = ErrKind.badRequest) ∧
    (req.userID ≠ "" → ¬(req.side ≠ "YES" ∧ req.side ≠ "NO") → req.quantity ≠ 0 →
      (∀ em, ops.getMarketByContract s req.contractID = Except.error em →
        e.kind = ErrKind.notFound) ∧
      (∀ m, ops.getMarketByContract s req.contractID = Except.ok m →
        (m.status ≠ "open" → e.kind = ErrKind.conflict) ∧
        (m.status = "open" → ¬(m.b ≤ 0) →
          ∀ exps, ops.getUserCellExposures s req.userID = Except.ok exps →
            (∀ le, checkLimit lim m.h3CellID (exposureDeltaOf req) exps = some le →
              e.kind = ErrKind.conflict ∧ e.msg = limitErrorMessage le) ∧
            (checkLimit lim m.h3CellID (exposureDeltaOf req) exps = none →
              tradeValidateOK po m req = false → e.kind = ErrKind.conflict)))) := by
  by_cases h1 : req.userID = ""
  · simp only [executeTrade, if_pos h1] at hres
    simp only [Except.error.injEq] at hres
    subst hres
    exact ⟨fun _ => rfl, fun hne _ _ => absurd h1 hne⟩
  by_cases h2 : req.side ≠ "YES" ∧ req.side ≠ "NO"
  · simp only [executeTrade, if_neg h1, if_pos h2] at hres
    simp only [Except.error.injEq] at hres
    subst hres
    exact ⟨fun _ => rfl, fun _ hs _ => absurd h2 hs⟩
  by_cases h3 : req.quantity = 0
  · simp only [executeTrade, if_neg h1, if_neg h2, if_pos h3] at hres
    simp only [Except.error.injEq] at hres
    subst hres
    exact ⟨fun _ => rfl, fun _ _ hq => absurd h3 hq⟩
  have hbad : ¬(req.userID = "" ∨ (req.side ≠ "YES" ∧ req.side ≠ "NO") ∨
      req.quantity = 0) := by
    rintro (h | h | h)
    · exact h1 h
    · exact h2 h
    · exact h3 h
  cases hm : ops.getMarketByContract s req.contractID with
  | error em0 =>
    simp only [executeTrade, if_neg h1, if_neg h2, if_neg h3, hm] at hres
    simp only [Except.error.injEq] at hres
    subst hres
    exact ⟨fun hd => absurd hd hbad, fun _ _ _ =>
      ⟨fun em _ => rfl, fun m hm2 => absurd hm2 (by simp)⟩⟩
  | ok market =>
    by_cases h4 : market.status ≠ "open"
    · simp only [executeTrade, if_neg h1, if_neg h2, if_neg h3, hm, if_pos h4] at hres
      simp only [Except.error.injEq] at hres
      subst hres
      refine ⟨fun hd => absurd hd hbad, fun _ _ _ =>
        ⟨fun em hem => absurd hem (by simp), fun m hm2 => ?_⟩⟩
      obtain rfl : market = m := by simpa using hm2
      exact ⟨fun _ => rfl, fun hopen => absurd hopen h4⟩
    by_cases h5 : market.b ≤ 0
    · simp only [executeTrade, if_neg h1, if_neg h2, if_neg h3, hm, if_neg h4,
        if_pos h5] at hres
      simp only [Except.error.injEq] at hres
      subst hres
      refine ⟨fun hd => absurd hd hbad, fun _ _ _ =>
        ⟨fun em hem => absurd hem (by simp), fun m hm2 => ?_⟩⟩
      obtain rfl : market = m := by simpa using hm2
      exact ⟨fun hne => absurd hne h4, fun _ hb => absurd h5 hb⟩
    cases hexp : ops.getUserCellExposures s req.userID with
    | error ee =>
      simp only [executeTrade, if_neg h1, if_neg h2, if_neg h3, hm, if_neg h4, if_neg h5,
        hexp] at hres
      simp only [Except.error.injEq] at hres
      subst hres
      refine ⟨fun hd => absurd hd hbad, fun _ _ _ =>
        ⟨fun em hem => absurd hem (by simp), fun m hm2 => ?_⟩⟩
      obtain rfl : market = m := by simpa using hm2
      exact ⟨fun hne => absurd hne h4, fun _ _ exps hexp2 => absurd hexp2 (by simp)⟩
    | ok exposures =>
      cases hlim : checkLimit lim market.h3CellID (exposureDeltaOf req) exposures with
      | some le0 =>
        simp only [executeTrade, if_neg h1, if_neg h2, if_neg h3, hm, if_neg h4, if_neg h5,
          hexp, hlim] at hres
        simp only [Except.error.injEq] at hres
        subst hres
        refine ⟨fun hd => absurd hd hbad, fun _ _ _ =>
          ⟨fun em hem => absurd hem (by simp), fun m hm2 => ?_⟩⟩
        obtain rfl : market = m := by simpa using hm2
        refine ⟨fun hne => absurd hne h4, fun _ _ exps hexp2 => ?_⟩
        obtain rfl : exposures = exps := by simpa using hexp2
        refine ⟨fun le hle => ?_, fun hnone _ => ?_⟩
        · rw [hlim] at hle
          obtain rfl : le0 = le := by simpa using hle
          exact ⟨rfl, rfl⟩
        · exact absurd (hlim.symm.trans hnone) (by simp)
      | none =>
        by_cases hval : tradeValidateOK po market req = false
        · simp only [executeTrade, if_neg h1, if_neg h2, if_neg h3, hm, if_neg h4, if_neg h5,
            hexp, hlim, if_pos hval] at hres
          simp only [Except.error.injEq] at hres
          subst hres
          refine ⟨fun hd => absurd hd hbad, fun _ _ _ =>
            ⟨fun em hem => absurd hem (by simp), fun m hm2 => ?_⟩⟩
          obtain rfl : market = m := by simpa using hm2
          refine ⟨fun hne => absurd hne h4, fun _ _ exps hexp2 => ?_⟩
          obtain rfl : exposures = exps := by simpa using hexp2
          refine ⟨fun le hle => ?_, fun _ _ => rfl⟩
          rw [hlim] at hle
          exact absurd hle (by simp)
        · -- past every pre-write check: the remaining exits keep the claim's
          -- implications vacuously (the limiter passed and validation passed)
          refine ⟨fun hd => absurd hd hbad, fun _ _ _ =>
            ⟨fun em hem => absurd hem (by simp), fun m hm2 => ?_⟩⟩
          obtain rfl : market = m := by simpa using hm2
          refine ⟨fun hne => absurd hne h4, fun _ _ exps hexp2 => ?_⟩
          obtain rfl : exposures = exps := by simpa using hexp2
          refine ⟨fun le hle => ?_, fun _ hvf => absurd hvf hval⟩
          rw [hlim] at hle
          exact absurd hle (by simp)

/-- C2: whenever `ExecuteTrade` fails before its write steps — input
validation (empty user, bad side, zero quantity, all `BadRequest`), missing
market (`NotFound`), market not open, position-limit rejection or price-bound
rejection (each `Conflict`) — the run leaves the store state (markets and
ledger) unchanged and performs no `UpdateMarketState` or `InsertLedgerEntry`
call. -/
theorem executeTrade_reject_no_writes {σ : Type} (ops : StoreOps σ) (po : PricerOracle)
    (lim : PositionLimiter) (req : TradeRequest) (uuid : String) (now : ℕ) (s : σ)
    (e : TradeError)
    (hres : (executeTrade ops po lim req uuid now s).res = Except.error e)
    (hkind : e.kind ≠ ErrKind.internalError) :
    ((executeTrade ops po lim req uuid now s).state = s ∧
      ((executeTrade ops po lim req uuid now s).calls.all fun c => !c.isWrite) = true) ∧
    ((req.userID = "" ∨ (req.side ≠ "YES" ∧ req.side ≠ "NO") ∨ req.quantity = 0) →
      e.kind = ErrKind.badRequest) ∧
    (req.userID ≠ "" → ¬(req.side ≠ "YES" ∧ req.side ≠ "NO") → req.quantity ≠ 0 →
      (∀ em, ops.getMarketByContract s req.contractID = Except.error em →
        e.kind = ErrKind.notFound) ∧
      (∀ m, ops.getMarketByContract s req.contractID = Except.ok m →
        (m.status ≠ "open" → e.kind = ErrKind.conflict) ∧
        (m.status = "open" → ¬(m.b ≤ 0) →
          ∀ exps, ops.getUserCellExposures s req.userID = Except.ok exps →
            (∀ le, checkLimit lim m.h3CellID (exposureDeltaOf req) exps = some le →
              e.kind = ErrKind.conflict ∧ e.msg = limitErrorMessage le) ∧
            (checkLimit lim m.h3CellID (exposureDeltaOf req) exps = none →
              tradeValidateOK po m req = false → e.kind = ErrKind.conflict)))) :=
  ⟨(executeTrade_discipline ops po lim req uuid now s).1 e hres hkind,
   (executeTrade_error_mapping ops po lim req uuid now s e hres).1,
   (executeTrade_error_mapping ops po lim req uuid now s e hres).2⟩

/-- C2 witness: a request with an empty user id against the sample store is
rejected and the run leaves the store untouched with no write calls, and the
returned error is classified `BadRequest`. -/
theorem executeTrade_reject_no_writes_witness :
    ((executeTrade memStoreOps onePricer wideLimiter
      ⟨"", "ATMX-872a1070b-PRECIP-25MM-20250815", "YES", 50⟩ "t1" 0 sampleStore).state =
      sampleStore ∧
    ((executeTrade memStoreOps onePricer wideLimiter
      ⟨"", "ATMX-872a1070b-PRECIP-25MM-20250815", "YES", 50⟩ "t1" 0
        sampleStore).calls.all fun c => !c.isWrite) = true) ∧
    (⟨ErrKind.badRequest, "user_id is required"⟩ : TradeError).kind =
      ErrKind.badRequest :=
  ⟨(executeTrade_reject_no_writes memStoreOps onePricer wideLimiter
      ⟨"", "ATMX-872a1070b-PRECIP-25MM-20250815", "YES", 50⟩ "t1" 0 sampleStore
      ⟨ErrKind.badRequest, "user_id is required"⟩ rfl (by simp)).1,
   (executeTrade_reject_no_writes memStoreOps onePricer wideLimiter
      ⟨"", "ATMX-872a1070b-PRECIP-25MM-20250815", "YES", 50⟩ "t1" 0 sampleStore
      ⟨ErrKind.badRequest, "user_id is required"⟩ rfl (by simp)).2.1 (Or.inl rfl)⟩

/-- C3: in every run of `ExecuteTrade`, each `InsertLedgerEntry` call comes
strictly after an `UpdateMarketState` call in the trace, and whenever a
ledger entry is appended the market-state update (with the post-trade
quantities and prices) succeeded. -/
theorem executeTrade_state_before_entry {σ : Type} (ops : StoreOps σ) (po : PricerOracle)
    (lim : PositionLimiter) (req : TradeRequest) (uuid : String) (now : ℕ) (s : σ) :
    writesOrdered (executeTrade ops po lim req uuid now s).calls = true ∧
    (∀ entry,
      StoreCall.insertLedgerEntry entry ∈ (executeTrade ops po lim req uuid now s).calls →
      ∃ m σ2, ops.getMarketByContract s req.contractID = Except.ok m ∧
        entry = tradeEntryOf po m req uuid now ∧
        StoreCall.updateMarketState m.id (tradeNewQYes m req) (tradeNewQNo m req)
            (Price po m.b (tradeNewQYes m req) (tradeNewQNo m req))
            (PriceNo po m.b (tradeNewQYes m req) (tradeNewQNo m req)) ∈
          (executeTrade ops po lim req uuid now s).calls ∧
        ops.updateMarketState s m.id (tradeNewQYes m req) (tradeNewQNo m req)
          (Price po m.b (tradeNewQYes m req) (tradeNewQNo m req))
          (PriceNo po m.b (tradeNewQYes m req) (tradeNewQNo m req)) = Except.ok σ2) :=
  ⟨(executeTrade_discipline ops po lim req uuid now s).2.1,
   (executeTrade_discipline ops po lim req uuid now s).2.2⟩

/-- C3 witness: the ordering statement instantiated on a concrete successful
run against the in-memory store. -/
theorem executeTrade_state_before_entry_witness :
    writesOrdered
      (executeTrade memStoreOps onePricer wideLimiter sampleRequest "t1" 0
        sampleStore).calls = true ∧
    (∀ entry,
      StoreCall.insertLedgerEntry entry ∈
        (executeTrade memStoreOps onePricer wideLimiter sampleRequest "t1" 0
          sampleStore).calls →
      ∃ m σ2, memStoreOps.getMarketByContract sampleStore sampleRequest.contractID =
          Except.ok m ∧
        entry = tradeEntryOf onePricer m sampleRequest "t1" 0 ∧
        StoreCall.updateMarketState m.id (tradeNewQYes m sampleRequest)
            (tradeNewQNo m sampleRequest)
            (Price onePricer m.b (tradeNewQYes m sampleRequest) (tradeNewQNo m sampleRequest))
            (PriceNo onePricer m.b (tradeNewQYes m sampleRequest)
              (tradeNewQNo m sampleRequest)) ∈
          (executeTrade memStoreOps onePricer wideLimiter sampleRequest "t1" 0
            sampleStore).calls ∧
        memStoreOps.updateMarketState sampleStore m.id (tradeNewQYes m sampleRequest)
          (tradeNewQNo m sampleRequest)
          (Price onePricer m.b (tradeNewQYes m sampleRequest) (tradeNewQNo m sampleRequest))
          (PriceNo onePricer m.b (tradeNewQYes m sampleRequest)
            (tradeNewQNo m sampleRequest)) = Except.ok σ2) :=
  executeTrade_state_before_entry memStoreOps onePricer wideLimiter sampleRequest "t1" 0
    sampleStore

/-- C10: when every pipeline step up to the ledger append succeeds but the
post-trade position read fails or lists no position for the traded market,
`ExecuteTrade` still returns the success response for the executed trade —
with the state advanced past update and append — and the response's position
summary is zero-valued; the read error is never surfaced. -/
theorem executeTrade_position_read_degraded {σ : Type} (ops : StoreOps σ) (po : PricerOracle)
    (lim : PositionLimiter) (req : TradeRequest) (uuid : String) (now : ℕ) (s : σ)
    (m : Market) (exps : List (String × ℚ)) (σ2 σ3 : σ)
    (h1 : req.userID ≠ "")
    (h2 : req.side = "YES" ∨ req.side = "NO")
    (h3 : req.quantity ≠ 0)
    (hm : ops.getMarketByContract s req.contractID = Except.ok m)
    (h4 : m.status = "open")
    (h5 : 0 < m.b)
    (hexp : ops.getUserCellExposures s req.userID = Except.ok exps)
    (hlim : checkLimit lim m.h3CellID (exposureDeltaOf req) exps = none)
    (hval : tradeValidateOK po m req = true)
    (hupd : ops.updateMarketState s m.id (tradeNewQYes m req) (tradeNewQNo m req)
      (Price po m.b (tradeNewQYes m req) (tradeNewQNo m req))
      (PriceNo po m.b (tradeNewQYes m req) (tradeNewQNo m req)) = Except.ok σ2)
    (hins : ops.insertLedgerEntry σ2 (tradeEntryOf po m req uuid now) = Except.ok σ3)
    (hpos : (∃ err, ops.getUserPositions σ3 req.userID = Except.error err) ∨
      (∃ ps, ops.getUserPositions σ3 req.userID = Except.ok ps ∧
        ∀ p ∈ ps, p.marketID ≠ m.id)) :
    (executeTrade ops po lim req uuid now s).res =
      Except.ok
        { tradeID := uuid, userID := req.userID, contractID := req.contractID,
          side := req.side, quantity := req.quantity,
          fillPrice := tradeFillPriceOf po m req, cost := tradeCostOf po m req,
          position := ⟨0, 0, 0, 0⟩ } ∧
    (executeTrade ops po lim req uuid now s).state = σ3 := by
  have h2n : ¬(req.side ≠ "YES" ∧ req.side ≠ "NO") := by
    rcases h2 with h | h <;> simp [h]
  have h4n : ¬(m.status ≠ "open") := by simp [h4]
  have h5n : ¬(m.b ≤ 0) := not_le.mpr h5
  have hvaln : ¬(tradeValidateOK po m req = false) := by simp [hval]
  rcases hpos with ⟨err, hp⟩ | ⟨ps, hp, hnone⟩
  · simp only [executeTrade, if_neg h1, if_neg h2n, if_neg h3, hm, if_neg h4n, if_neg h5n,
      hexp, hlim, if_neg hvaln, hupd, hins, hp]
    exact ⟨by simp [findPosSummary], by simp⟩
  · have hfind : ps.find? (fun p => p.marketID == m.id) = none := by
      rw [List.find?_eq_none]
      intro p hp2
      simp only [beq_iff_eq]
      exact hnone p hp2
    simp only [executeTrade, if_neg h1, if_neg h2n, if_neg h3, hm, if_neg h4n, if_neg h5n,
      hexp, hlim, if_neg hvaln, hupd, hins, hp, findPosSummary, hfind]
    exact ⟨by simp, by simp⟩

/-- C10 witness: a concrete successful trade against the in-memory store
whose position read has been made to fail; the run still returns the success
response with the zero-valued position summary. -/
theorem executeTrade_position_read_degraded_witness :
    (executeTrade failingPositionsOps onePricer wideLimiter sampleRequest "t1" 0
      sampleStore).res =
      Except.ok
        { tradeID := "t1", userID := sampleRequest.userID,
          contractID := sampleRequest.contractID, side := sampleRequest.side,
          quantity := sampleRequest.quantity,
          fillPrice := tradeFillPriceOf onePricer sampleMarket sampleRequest,
          cost := tradeCostOf onePricer sampleMarket sampleRequest,
          position := ⟨0, 0, 0, 0⟩ } := by
  obtain ⟨σ2, hupd⟩ : ∃ x, failingPositionsOps.updateMarketState sampleStore sampleMarket.id
      (tradeNewQYes sampleMarket sampleRequest) (tradeNewQNo sampleMarket sampleRequest)
      (Price onePricer sampleMarket.b (tradeNewQYes sampleMarket sampleRequest)
        (tradeNewQNo sampleMarket sampleRequest))
      (PriceNo onePricer sampleMarket.b (tradeNewQYes sampleMarket sampleRequest)
        (tradeNewQNo sampleMarket sampleRequest)) = Except.ok x := ⟨_, rfl⟩
  obtain ⟨σ3, hins⟩ : ∃ x, failingPositionsOps.insertLedgerEntry σ2
      (tradeEntryOf onePricer sampleMarket sampleRequest "t1" 0) = Except.ok x := ⟨_, rfl⟩
  have hv : lookupExposure [] sampleMarket.h3CellID + exposureDeltaOf sampleRequest =
      (50 : ℚ) := by
    simp [lookupExposure, exposureDeltaOf, sampleRequest]
  have hlim : checkLimit wideLimiter sampleMarket.h3CellID (exposureDeltaOf sampleRequest)
      [] = none := by
    apply (checkLimit_cases wideLimiter sampleMarket.h3CellID
      (exposureDeltaOf sampleRequest) []).2.2.mpr
    constructor
    · rw [hv]
      show qabs (50 : ℚ) ≤ (1000 : ℚ)
      norm_num [qabs]
    · show specCorrelated _ _ _ [] ≤ (5000 : ℚ)
      simp only [specCorrelated, List.filter_nil, List.map_nil, List.sum_nil, add_zero]
      rw [hv]
      norm_num [qabs]
  have h := executeTrade_position_read_degraded failingPositionsOps onePricer wideLimiter
    sampleRequest "t1" 0 sampleStore sampleMarket [] σ2 σ3
    (by decide) (Or.inl rfl) (by show (50 : ℚ) ≠ 0; norm_num) rfl rfl
    (by show (0 : ℚ) < (100 : ℚ); norm_num) rfl hlim rfl hupd hins
    (Or.inl ⟨"positions read failed", rfl⟩)
  exact h.1

/-- C6 witness: the position-derivation theorem applied to the concrete
two-entry ledger (YES 50 for 26, NO 20 for 9), whose positions evaluate to
the single aggregated sample position. -/
theorem getUserPositions_spec_witness :
    (∀ p ∈ [samplePosition],
      p.yesQty = sumQtyFor ledgerStore.ledger "u1" p.marketID "YES" ∧
      p.noQty = sumQtyFor ledgerStore.ledger "u1" p.marketID "NO" ∧
      p.netQty = p.yesQty - p.noQty ∧
      p.costBasis = sumCostFor ledgerStore.ledger "u1" p.marketID) ∧
    (∀ exps, MemoryStore.getUserCellExposures ledgerStore "u1" = Except.ok exps →
      ∀ kv ∈ exps, kv.2 = sumNetForCell [samplePosition] kv.1 ∧ kv.1 ≠ "") :=
  getUserPositions_spec ledgerStore "u1" (by decide) [samplePosition] (by
    simp [MemoryStore.getUserPositions, ledgerStore, sampleEntry1, sampleEntry2, updateAggs,
      applyEntry, samplePosition, sampleMarket, List.lookup]
    norm_num)

end ATMX
